import Mathlib

/-
  Verification of the paragrafs transcript-segmentation library.

  Shallow embedding of the core operations of the library:
  token marking, isolated-token cleanup, segment grouping, short-segment
  merging, transcript formatting, the LCS-based ground-truth aligner and
  the n-gram hint miner.  JavaScript numbers are modelled as rationals,
  `Map`/`Set` objects as insertion-ordered association lists, and partial
  array accesses (`arr.at(-1)!` on an empty array, which throws at
  runtime) as `Option`-returning functions.

  Text normalization (diacritic stripping and Arabic letter folding) is
  an external collaborator of the core: the aligner and the miner are
  parameterized by the normalization function, and a concrete model
  normalizer is supplied for evaluating witnesses.
-/

set_option maxHeartbeats 1000000

namespace Paragrafs

/-- A single timed token: `{start, end, text}` from `src/types.ts`. -/
structure Token where
  start : ℚ
  endTime : ℚ
  text : String
deriving DecidableEq, Repr

/-- A marked token is either a real token or one of the two break
sentinels `SEGMENT_BREAK` / `ALWAYS_BREAK` from `src/types.ts`;
the string sentinels are modelled as dedicated constructors. -/
inductive MarkedToken where
  | token : Token → MarkedToken
  | SEGMENT_BREAK : MarkedToken
  | ALWAYS_BREAK : MarkedToken
deriving DecidableEq, Repr

/-- A token produced by ground-truth syncing; `isUnknown` is an optional
boolean in the source, absent meaning `false`. -/
structure GroundedToken where
  start : ℚ
  endTime : ℚ
  text : String
  isUnknown : Bool
deriving DecidableEq, Repr

/-- A segment with word-level tokens, from `src/types.ts`. -/
structure Segment where
  start : ℚ
  endTime : ℚ
  text : String
  tokens : List Token
deriving DecidableEq, Repr

/-- A marked segment.  The grouper emits `segmentStart!`/`segmentEnd!`
values that are `null` at runtime when the buffer holds no word token,
so the time fields are modelled as `Option`. -/
structure MarkedSegment where
  start : Option ℚ
  endTime : Option ℚ
  tokens : List MarkedToken
deriving DecidableEq, Repr

/-- True for the two break sentinels, false for word tokens
(`t !== SEGMENT_BREAK && t !== ALWAYS_BREAK` in the source). -/
def isDivider : MarkedToken → Bool
  | MarkedToken.SEGMENT_BREAK => true
  | MarkedToken.ALWAYS_BREAK => true
  | MarkedToken.token _ => false

/- ------------------------------------------------------------------ -/
/- Isolated-Token Cleaner (`cleanupIsolatedTokens`, src/transcript.ts) -/
/- ------------------------------------------------------------------ -/

/-- True exactly on the `SEGMENT_BREAK` sentinel
(`current === SEGMENT_BREAK` in the source). -/
def isSoftBreak : MarkedToken → Bool
  | MarkedToken.SEGMENT_BREAK => true
  | _ => false

/-- The skip test of one loop iteration of `cleanupIsolatedTokens`:
`current` is dropped when it is a `SEGMENT_BREAK` and either the next
element is a break, the element two ahead is a break or missing, or the
last element pushed to the result was a `SEGMENT_BREAK` (`lastSoft`). -/
def skipCurrent (lastSoft : Bool) (c : MarkedToken) (rest : List MarkedToken) : Bool :=
  match c with
  | MarkedToken.SEGMENT_BREAK =>
    (match rest.head? with
     | some n => isDivider n
     | none => false)
    || (match (rest.drop 1).head? with
        | some f => isDivider f
        | none => true)
    || lastSoft
  | _ => false

/-- The loop of `cleanupIsolatedTokens`; `lastSoft` tracks whether
`result.at(-1) === SEGMENT_BREAK`. -/
def cleanupAux (lastSoft : Bool) : List MarkedToken → List MarkedToken
  | [] => []
  | c :: rest =>
    if skipCurrent lastSoft c rest then cleanupAux lastSoft rest
    else c :: cleanupAux (isSoftBreak c) rest

/-- `cleanupIsolatedTokens` from `src/transcript.ts`: removes
`SEGMENT_BREAK` markers that would strand a single token. -/
def cleanupIsolatedTokens (markedTokens : List MarkedToken) : List MarkedToken :=
  cleanupAux false markedTokens

/-- A list is clean (relative to the last pushed element) when the
cleanup loop would drop none of its elements. -/
def cleanFrom (lastSoft : Bool) : List MarkedToken → Bool
  | [] => true
  | c :: rest => !skipCurrent lastSoft c rest && cleanFrom (isSoftBreak c) rest

theorem cleanupAux_of_cleanFrom (l : List MarkedToken) :
    ∀ ls, cleanFrom ls l = true → cleanupAux ls l = l := by
  induction l with
  | nil => intro ls _; rfl
  | cons c rest ih =>
    intro ls h
    simp only [cleanFrom, Bool.and_eq_true, Bool.not_eq_true'] at h
    simp only [cleanupAux, h.1, if_false, Bool.false_eq_true]
    rw [ih _ h.2]

theorem head_cleanupAux_token (t : Token) (rest : List MarkedToken) (ls : Bool) :
    cleanupAux ls (MarkedToken.token t :: rest) =
      MarkedToken.token t :: cleanupAux false rest := by
  simp [cleanupAux, skipCurrent, isSoftBreak]

theorem cleanFrom_cleanupAux (l : List MarkedToken) :
    ∀ ls, cleanFrom ls (cleanupAux ls l) = true := by
  induction l with
  | nil => intro ls; rfl
  | cons c rest ih =>
    intro ls
    by_cases hskip : skipCurrent ls c rest = true
    · simp only [cleanupAux, hskip, if_true]
      exact ih ls
    · simp only [cleanupAux, hskip, if_false, Bool.false_eq_true]
      cases c with
      | token t =>
        simp only [cleanFrom, skipCurrent, isSoftBreak, Bool.not_false, Bool.true_and]
        exact ih false
      | ALWAYS_BREAK =>
        simp only [cleanFrom, skipCurrent, isSoftBreak, Bool.not_false, Bool.true_and]
        exact ih false
      | SEGMENT_BREAK =>
        -- the break was kept, so the next two elements exist and are word
        -- tokens and the previously pushed element was not a soft break
        match rest with
        | [] => exact absurd (by simp [skipCurrent]) hskip
        | [x] => exact absurd (by simp [skipCurrent]) hskip
        | x :: y :: rest2 =>
          cases x with
          | SEGMENT_BREAK => exact absurd (by simp [skipCurrent, isDivider]) hskip
          | ALWAYS_BREAK => exact absurd (by simp [skipCurrent, isDivider]) hskip
          | token tx =>
            cases y with
            | SEGMENT_BREAK => exact absurd (by simp [skipCurrent, isDivider]) hskip
            | ALWAYS_BREAK => exact absurd (by simp [skipCurrent, isDivider]) hskip
            | token ty =>
              have hls : ls = false := by
                by_contra hcon
                exact hskip (by simp [skipCurrent, isDivider, Bool.of_not_eq_false hcon])
              have hrec := ih true
              rw [show (true : Bool) = isSoftBreak MarkedToken.SEGMENT_BREAK from rfl] at hrec
              rw [head_cleanupAux_token, head_cleanupAux_token] at hrec
              rw [head_cleanupAux_token, head_cleanupAux_token]
              simp only [cleanFrom, skipCurrent, isDivider, isSoftBreak, List.head?,
                List.drop, Bool.or_false, Bool.false_or, hls] at hrec ⊢
              simpa using hrec

/-- Claim C3: the Isolated-Token Cleaner is idempotent: cleaning an
already-cleaned marked-token list changes nothing. -/
theorem C3_cleanup_idempotent (x : List MarkedToken) :
    cleanupIsolatedTokens (cleanupIsolatedTokens x) = cleanupIsolatedTokens x := by
  unfold cleanupIsolatedTokens
  exact cleanupAux_of_cleanFrom _ _ (cleanFrom_cleanupAux x false)

/- ------------------------------------------------------------------ -/
/- Text utilities (src/utils/textUtils.ts)                            -/
/- ------------------------------------------------------------------ -/

/-- `isEndingWithPunctuation` from `src/src/utils/textUtils.ts`: the
regular expression `/[.؟!?؛…]$/`, i.e. the last character is a period,
Arabic question mark, exclamation mark, question mark, Arabic
semicolon or ellipsis. -/
def isEndingWithPunctuation (text : String) : Bool :=
  match text.toList.getLast? with
  | some c => c = '.' || c = '؟' || c = '!' || c = '?' || c = '؛' || c = '…'
  | none => false

/-- The `Hints` map: normalized first word to the list of word
sequences starting with it (`Record<string, string[][]>`). -/
def Hints : Type := List (String × List (List String))

/-- Map lookup `hints[key]` (first matching entry of the record). -/
def lookupHints (hints : Hints) (key : String) : Option (List (List String)) :=
  (List.find? (fun p => p.1 = key) hints).map (fun p => p.2)

/-- The inner loop of `isHintMatched`: every word of the phrase equals
the text of the corresponding token at successive positions (false when
fewer tokens remain than the phrase has words). -/
def matchesFrom : List Token → List String → Bool
  | _, [] => true
  | [], _ :: _ => false
  | t :: ts, w :: ws => t.text = w && matchesFrom ts ws

/-- `isHintMatched` from `src/utils/transcriptUtils.ts`: some hint
phrase keyed by `tokens[index].text` matches the token texts starting
at `index`. -/
def isHintMatched (tokens : List Token) (hints : Hints) (index : Nat) : Bool :=
  match tokens.drop index with
  | [] => false
  | token :: _ =>
    match lookupHints hints token.text with
    | none => false
    | some candidates => candidates.any (fun words => matchesFrom (tokens.drop index) words)

/- ------------------------------------------------------------------ -/
/- Divider Marker (`markTokensWithDividers`, src/transcript.ts)       -/
/- ------------------------------------------------------------------ -/

/-- Options of `markTokensWithDividers`. -/
structure MarkTokensWithDividersOptions where
  fillers : List String
  gapThreshold : ℚ
  hints : Option Hints

/-- One pass of the divider-marking loop.  `allTokens` is the full
input array (hint matching uses absolute indices), `idx` the current
index and `prevEnd` the end time of the last non-filler token. -/
def markAux (allTokens : List Token) (opts : MarkTokensWithDividersOptions) :
    Nat → Option ℚ → List Token → List MarkedToken
  | _, _, [] => []
  | idx, prevEnd, token :: rest =>
    if opts.fillers.contains token.text then
      MarkedToken.SEGMENT_BREAK :: markAux allTokens opts (idx + 1) prevEnd rest
    else
      (if (match opts.hints with
           | some hints => isHintMatched allTokens hints idx
           | none => false)
       then [MarkedToken.ALWAYS_BREAK] else [])
      ++ (if (match prevEnd with
              | some p => decide (opts.gapThreshold < token.start - p)
              | none => false)
          then [MarkedToken.SEGMENT_BREAK] else [])
      ++ [MarkedToken.token token]
      ++ (if isEndingWithPunctuation token.text then [MarkedToken.SEGMENT_BREAK] else [])
      ++ markAux allTokens opts (idx + 1) (some token.endTime) rest

/-- `markTokensWithDividers` from `src/transcript.ts`. -/
def markTokensWithDividers (tokens : List Token) (opts : MarkTokensWithDividersOptions) :
    List MarkedToken :=
  markAux tokens opts 0 none tokens

/-- The word tokens of a marked-token list, in order (markers dropped). -/
def wordsOf (l : List MarkedToken) : List Token :=
  l.filterMap (fun mt => match mt with
    | MarkedToken.token t => some t
    | _ => none)

theorem wordsOf_append (l1 l2 : List MarkedToken) :
    wordsOf (l1 ++ l2) = wordsOf l1 ++ wordsOf l2 := by
  simp [wordsOf]

theorem wordsOf_cons_soft (l : List MarkedToken) :
    wordsOf (MarkedToken.SEGMENT_BREAK :: l) = wordsOf l := by
  simp [wordsOf]

theorem wordsOf_cons_always (l : List MarkedToken) :
    wordsOf (MarkedToken.ALWAYS_BREAK :: l) = wordsOf l := by
  simp [wordsOf]

theorem wordsOf_cons_token (t : Token) (l : List MarkedToken) :
    wordsOf (MarkedToken.token t :: l) = t :: wordsOf l := by
  simp [wordsOf]

theorem markAux_spec (opts : MarkTokensWithDividersOptions) (allTokens : List Token)
    (tokens : List Token) : ∀ idx prevEnd,
    wordsOf (markAux allTokens opts idx prevEnd tokens) =
      tokens.filter (fun t => !opts.fillers.contains t.text) ∧
    tokens.length ≤ (markAux allTokens opts idx prevEnd tokens).length := by
  induction tokens with
  | nil => intro idx prevEnd; exact ⟨rfl, Nat.le_refl 0⟩
  | cons token rest ih =>
    intro idx prevEnd
    by_cases hf : opts.fillers.contains token.text = true
    · simp only [markAux, hf, if_true]
      constructor
      · rw [wordsOf_cons_soft, (ih (idx + 1) prevEnd).1, List.filter_cons]
        have hm : token.text ∈ opts.fillers := by simpa using hf
        simp [hm]
      · simpa [List.length] using Nat.succ_le_succ (ih (idx + 1) prevEnd).2
    · simp only [markAux, hf, if_false, Bool.false_eq_true]
      constructor
      · rw [wordsOf_append, wordsOf_append, wordsOf_append, wordsOf_append]
        have h1 : ∀ b : Bool,
            wordsOf (if b then [MarkedToken.ALWAYS_BREAK] else []) = [] := by
          intro b; cases b <;> rfl
        have h2 : ∀ b : Bool,
            wordsOf (if b then [MarkedToken.SEGMENT_BREAK] else []) = [] := by
          intro b; cases b <;> rfl
        rw [h1, h2, h2]
        simp only [List.nil_append, List.append_nil]
        rw [wordsOf_cons_token, (ih (idx + 1) (some token.endTime)).1, List.filter_cons]
        have hm : token.text ∉ opts.fillers := by simpa using hf
        simp [hm, wordsOf]
      · have hle := (ih (idx + 1) (some token.endTime)).2
        simp only [List.length_append, List.length_cons]
        omega

/-- Claim C10: the Divider Marker preserves non-filler tokens: the word
tokens of the output are exactly the input tokens whose text is not a
filler, unchanged and in order; the output is at least as long as the
input; and no word token of the output has a filler text. -/
theorem C10_divider_marker_frame (tokens : List Token)
    (opts : MarkTokensWithDividersOptions) :
    wordsOf (markTokensWithDividers tokens opts) =
      tokens.filter (fun t => !opts.fillers.contains t.text) ∧
    tokens.length ≤ (markTokensWithDividers tokens opts).length ∧
    ∀ t ∈ wordsOf (markTokensWithDividers tokens opts),
      opts.fillers.contains t.text = false := by
  obtain ⟨h1, h2⟩ := markAux_spec opts tokens tokens 0 none
  refine ⟨h1, h2, ?_⟩
  intro t ht
  rw [markTokensWithDividers] at ht
  rw [h1] at ht
  simpa using (List.mem_filter.mp ht).2

/- ------------------------------------------------------------------ -/
/- Segment splitting and merging (src/transcript.ts)                  -/
/- ------------------------------------------------------------------ -/

/-- `splitSegment` from `src/transcript.ts`.  The source dereferences
`firstTokens.at(-1)!` and `secondTokens[0]`, which are `undefined` when
the corresponding filter result is empty and make the function throw;
this is modelled by returning `none`. -/
def splitSegment (segment : Segment) (splitTime : ℚ) : Option (List Segment) :=
  let firstTokens := segment.tokens.filter (fun token => token.start < splitTime)
  let secondTokens := segment.tokens.filter (fun token => !(token.start < splitTime))
  let firstText := String.intercalate " " (firstTokens.map (fun token => token.text))
  let secondText := String.intercalate " " (secondTokens.map (fun token => token.text))
  match firstTokens.getLast?, secondTokens.head? with
  | some lastFirst, some headSecond =>
    some [
      { start := segment.start, endTime := lastFirst.endTime,
        text := firstText, tokens := firstTokens },
      { start := headSecond.start, endTime := segment.endTime,
        text := secondText, tokens := secondTokens }]
  | _, _ => none

/-- `mergeSegments` from `src/transcript.ts`.  `segments.at(-1)!.end`
and `segments[0].start` are `undefined` on an empty array (the source
throws); modelled by `none`. -/
def mergeSegments (segments : List Segment) (delimiter : String := " ") : Option Segment :=
  let text := String.intercalate delimiter (segments.map (fun segment => segment.text))
  let tokens := segments.flatMap (fun segment => segment.tokens)
  match segments.getLast?, segments.head? with
  | some lastSeg, some headSeg =>
    some { start := headSeg.start, endTime := lastSeg.endTime, text := text, tokens := tokens }
  | _, _ => none

/-- Counterexample to claim C4: `splitSegment` does not return two
segments for every well-typed segment and split time (here no token
starts before the split time, and the source would throw on
`firstTokens.at(-1)!.end`), and `mergeSegments` fails on the empty
segment list. -/
theorem C4_counterexample :
    splitSegment { start := 1, endTime := 2, text := "a",
                   tokens := [{ start := 1, endTime := 2, text := "a" }] } 0 = none ∧
    mergeSegments [] = none := by
  constructor <;> rfl

/-- Claim C4 (amended): `splitSegment` returns exactly two segments
whenever at least one token starts strictly before the split time and
at least one token starts at or after it, and `mergeSegments` returns a
merged segment whenever the segment list is non-empty. -/
theorem C4_totality_amended (segment : Segment) (splitTime : ℚ) (segments : List Segment)
    (h1 : ∃ a ∈ segment.tokens, a.start < splitTime)
    (h2 : ∃ b ∈ segment.tokens, ¬ b.start < splitTime)
    (h3 : segments ≠ []) :
    (∃ s1 s2, splitSegment segment splitTime = some [s1, s2]) ∧
    (mergeSegments segments).isSome := by
  constructor
  · obtain ⟨a, ha, has⟩ := h1
    obtain ⟨b, hb, hbs⟩ := h2
    have hfst : segment.tokens.filter (fun token => token.start < splitTime) ≠ [] := by
      intro hemp
      exact (List.mem_nil_iff a).mp (hemp ▸ List.mem_filter.mpr ⟨ha, by simpa using has⟩)
    have hsnd : segment.tokens.filter (fun token => !(token.start < splitTime)) ≠ [] := by
      intro hemp
      exact (List.mem_nil_iff b).mp (hemp ▸ List.mem_filter.mpr ⟨hb, by simpa using hbs⟩)
    obtain ⟨lastFirst, hlf⟩ := Option.ne_none_iff_exists'.mp
      (mt List.getLast?_eq_none_iff.mp hfst)
    obtain ⟨headSecond, hhs⟩ := Option.ne_none_iff_exists'.mp
      (mt List.head?_eq_none_iff.mp hsnd)
    refine ⟨⟨segment.start, lastFirst.endTime,
        String.intercalate " " ((segment.tokens.filter
          (fun token => token.start < splitTime)).map (fun token => token.text)),
        segment.tokens.filter (fun token => token.start < splitTime)⟩,
      ⟨headSecond.start, segment.endTime,
        String.intercalate " " ((segment.tokens.filter
          (fun token => !(token.start < splitTime))).map (fun token => token.text)),
        segment.tokens.filter (fun token => !(token.start < splitTime))⟩, ?_⟩
    simp only [splitSegment]
    rw [hlf, hhs]
  · obtain ⟨lastSeg, hl⟩ := Option.ne_none_iff_exists'.mp
      (mt List.getLast?_eq_none_iff.mp h3)
    obtain ⟨headSeg, hh⟩ := Option.ne_none_iff_exists'.mp
      (mt List.head?_eq_none_iff.mp h3)
    simp only [mergeSegments]
    rw [hl, hh]
    rfl

/-- A small concrete segment used by the C4 witness. -/
def exSegmentAB : Segment :=
  ⟨0, 2, "a b", [⟨0, 1, "a"⟩, ⟨1, 2, "b"⟩]⟩

/-- Witness for `C4_totality_amended` at a concrete segment, split time
and segment list. -/
theorem C4_totality_amended_witness :
    (∃ s1 s2, splitSegment exSegmentAB 1 = some [s1, s2]) ∧
    (mergeSegments [exSegmentAB]).isSome :=
  C4_totality_amended exSegmentAB 1 [exSegmentAB]
    ⟨⟨0, 1, "a"⟩, by decide, by decide⟩
    ⟨⟨1, 2, "b"⟩, by decide, by decide⟩
    (by decide)

/- ------------------------------------------------------------------ -/
/- Segment Grouper (`groupMarkedTokensIntoSegments`)                  -/
/- ------------------------------------------------------------------ -/

/-- The first non-marker token of a marked-token list. -/
def firstWordToken (l : List MarkedToken) : Option Token :=
  (wordsOf l).head?

/-- The last non-marker token of a marked-token list. -/
def lastWordToken (l : List MarkedToken) : Option Token :=
  (wordsOf l).getLast?

/-- `segmentStart` update of one grouper iteration: set on the first
word token seen since the last reset, untouched by markers. -/
def updateSegmentStart (segmentStart : Option ℚ) (tok : MarkedToken) : Option ℚ :=
  match tok with
  | MarkedToken.token t =>
    (match segmentStart with
     | none => some t.start
     | some s => some s)
  | _ => segmentStart

/-- `segmentEnd` update of one grouper iteration: the end of the last
word token seen, untouched by markers. -/
def updateSegmentEnd (segmentEnd : Option ℚ) (tok : MarkedToken) : Option ℚ :=
  match tok with
  | MarkedToken.token t => some t.endTime
  | _ => segmentEnd

/-- The running duration: `segmentEnd - segmentStart` when both are
set, `0` otherwise. -/
def runningDuration (segmentStart segmentEnd : Option ℚ) : ℚ :=
  match segmentStart, segmentEnd with
  | some s, some e => e - s
  | _, _ => 0

/-- `markedTokens[i + 1] === SEGMENT_BREAK || markedTokens[i + 1] === ALWAYS_BREAK`. -/
def nextIsDivider (rest : List MarkedToken) : Bool :=
  match rest.head? with
  | some n => isDivider n
  | none => false

/-- The grouping loop of `groupMarkedTokensIntoSegments`.  State:
emitted segments, the accumulation buffer, and the `segmentStart` /
`segmentEnd` trackers (`null` modelled as `none`).  A segment is closed
when the running duration exceeds the cap and the next element is a
divider. -/
def groupAux (maxSecondsPerSegment : ℚ) :
    List MarkedSegment → List MarkedToken → Option ℚ → Option ℚ → List MarkedToken →
    List MarkedSegment × List MarkedToken × Option ℚ × Option ℚ
  | segments, currentSegment, segmentStart, segmentEnd, [] =>
    (segments, currentSegment, segmentStart, segmentEnd)
  | segments, currentSegment, segmentStart, segmentEnd, tok :: rest =>
    if maxSecondsPerSegment <
        runningDuration (updateSegmentStart segmentStart tok) (updateSegmentEnd segmentEnd tok)
        ∧ nextIsDivider rest = true then
      groupAux maxSecondsPerSegment
        (segments ++ [⟨updateSegmentStart segmentStart tok, updateSegmentEnd segmentEnd tok,
          currentSegment ++ [tok]⟩]) [] none none rest
    else
      groupAux maxSecondsPerSegment segments (currentSegment ++ [tok])
        (updateSegmentStart segmentStart tok) (updateSegmentEnd segmentEnd tok) rest

/-- `groupMarkedTokensIntoSegments` from `src/transcript.ts`: run the
loop, then flush the trailing buffer only when it is non-empty and both
trackers are set (i.e. the buffer holds at least one word token). -/
def groupMarkedTokensIntoSegments (markedTokens : List MarkedToken)
    (maxSecondsPerSegment : ℚ) : List MarkedSegment :=
  let r := groupAux maxSecondsPerSegment [] [] none none markedTokens
  if r.2.1 ≠ [] ∧ r.2.2.1.isSome ∧ r.2.2.2.isSome then
    r.1 ++ [⟨r.2.2.1, r.2.2.2, r.2.1⟩]
  else r.1

/-- The MarkedSegment boundary invariant of the spec: `start` is the
start of the first non-marker token and `end` the end of the last
non-marker token (both `none` when there is no word token). -/
def BoundaryGood (seg : MarkedSegment) : Prop :=
  seg.start = (firstWordToken seg.tokens).map Token.start ∧
  seg.endTime = (lastWordToken seg.tokens).map Token.endTime

instance (seg : MarkedSegment) : Decidable (BoundaryGood seg) := by
  unfold BoundaryGood; infer_instance

theorem wordsOf_concat_token (l : List MarkedToken) (t : Token) :
    wordsOf (l ++ [MarkedToken.token t]) = wordsOf l ++ [t] := by
  rw [wordsOf_append]; rfl

theorem wordsOf_concat_divider (l : List MarkedToken) (b : MarkedToken)
    (hb : isDivider b = true) : wordsOf (l ++ [b]) = wordsOf l := by
  rw [wordsOf_append]
  cases b with
  | token t => simp [isDivider] at hb
  | SEGMENT_BREAK => simp [wordsOf]
  | ALWAYS_BREAK => simp [wordsOf]

theorem boundaryGood_push (cur : List MarkedToken) (sS sE : Option ℚ) (tok : MarkedToken)
    (h : BoundaryGood ⟨sS, sE, cur⟩) :
    BoundaryGood ⟨updateSegmentStart sS tok, updateSegmentEnd sE tok, cur ++ [tok]⟩ := by
  obtain ⟨h1, h2⟩ := h
  cases tok with
  | token t =>
    constructor
    · show updateSegmentStart sS (MarkedToken.token t)
        = (firstWordToken (cur ++ [MarkedToken.token t])).map Token.start
      simp only [firstWordToken, wordsOf_concat_token] at h1 ⊢
      cases hw : wordsOf cur with
      | nil =>
        rw [hw] at h1
        simp only [List.head?, Option.map_none'] at h1
        rw [h1]
        rfl
      | cons w ws =>
        rw [hw] at h1
        simp only [List.head?, Option.map_some'] at h1
        rw [h1]
        rfl
    · show updateSegmentEnd sE (MarkedToken.token t)
        = (lastWordToken (cur ++ [MarkedToken.token t])).map Token.endTime
      simp [updateSegmentEnd, lastWordToken, wordsOf_concat_token]
  | SEGMENT_BREAK =>
    exact ⟨by simpa [firstWordToken, updateSegmentStart,
        wordsOf_concat_divider cur MarkedToken.SEGMENT_BREAK rfl] using h1,
      by simpa [lastWordToken, updateSegmentEnd,
        wordsOf_concat_divider cur MarkedToken.SEGMENT_BREAK rfl] using h2⟩
  | ALWAYS_BREAK =>
    exact ⟨by simpa [firstWordToken, updateSegmentStart,
        wordsOf_concat_divider cur MarkedToken.ALWAYS_BREAK rfl] using h1,
      by simpa [lastWordToken, updateSegmentEnd,
        wordsOf_concat_divider cur MarkedToken.ALWAYS_BREAK rfl] using h2⟩

theorem boundaryGood_push_divider (cur : List MarkedToken) (sS sE : Option ℚ)
    (b : MarkedToken) (hb : isDivider b = true) (h : BoundaryGood ⟨sS, sE, cur⟩) :
    BoundaryGood ⟨sS, sE, cur ++ [b]⟩ := by
  obtain ⟨h1, h2⟩ := h
  exact ⟨by simpa [firstWordToken, wordsOf_concat_divider cur b hb] using h1,
         by simpa [lastWordToken, wordsOf_concat_divider cur b hb] using h2⟩

theorem groupAux_invariant (maxS : ℚ) (input : List MarkedToken) :
    ∀ segs cur sS sE,
    BoundaryGood ⟨sS, sE, cur⟩ →
    (∀ s ∈ segs, BoundaryGood s) →
    BoundaryGood ⟨(groupAux maxS segs cur sS sE input).2.2.1,
                  (groupAux maxS segs cur sS sE input).2.2.2,
                  (groupAux maxS segs cur sS sE input).2.1⟩ ∧
    (∀ s ∈ (groupAux maxS segs cur sS sE input).1, BoundaryGood s) ∧
    ((groupAux maxS segs cur sS sE input).1.flatMap MarkedSegment.tokens
        ++ (groupAux maxS segs cur sS sE input).2.1
      = segs.flatMap MarkedSegment.tokens ++ cur ++ input) := by
  induction input with
  | nil =>
    intro segs cur sS sE hcur hsegs
    exact ⟨hcur, hsegs, by simp [groupAux]⟩
  | cons tok rest ih =>
    intro segs cur sS sE hcur hsegs
    have hcur1 := boundaryGood_push cur sS sE tok hcur
    by_cases hflush : (maxS < runningDuration (updateSegmentStart sS tok)
        (updateSegmentEnd sE tok) ∧ nextIsDivider rest = true)
    · rw [show groupAux maxS segs cur sS sE (tok :: rest) =
          groupAux maxS (segs ++ [⟨updateSegmentStart sS tok, updateSegmentEnd sE tok,
            cur ++ [tok]⟩]) [] none none rest from by
        simp only [groupAux]; rw [if_pos hflush]]
      have hsegs1 : ∀ s ∈ segs ++ [(⟨updateSegmentStart sS tok, updateSegmentEnd sE tok,
          cur ++ [tok]⟩ : MarkedSegment)], BoundaryGood s := by
        intro s hs
        rcases List.mem_append.mp hs with h | h
        · exact hsegs s h
        · rw [List.mem_singleton.mp h]; exact hcur1
      obtain ⟨a, b, c⟩ := ih (segs ++ [⟨updateSegmentStart sS tok, updateSegmentEnd sE tok,
        cur ++ [tok]⟩]) [] none none ⟨rfl, rfl⟩ hsegs1
      refine ⟨a, b, ?_⟩
      rw [c]
      simp
    · rw [show groupAux maxS segs cur sS sE (tok :: rest) =
          groupAux maxS segs (cur ++ [tok]) (updateSegmentStart sS tok)
            (updateSegmentEnd sE tok) rest from by
        simp only [groupAux]; rw [if_neg hflush]]
      obtain ⟨a, b, c⟩ := ih segs (cur ++ [tok]) _ _ hcur1 hsegs
      refine ⟨a, b, ?_⟩
      rw [c]
      simp

/-- Counterexample to claim C5: a trailing buffer containing only a
break marker is not flushed, so the concatenation of the output
segments' token lists loses it. -/
theorem C5_counterexample :
    groupMarkedTokensIntoSegments [MarkedToken.SEGMENT_BREAK] 5 = [] ∧
    (groupMarkedTokensIntoSegments [MarkedToken.SEGMENT_BREAK] 5).flatMap
        MarkedSegment.tokens ≠ [MarkedToken.SEGMENT_BREAK] := by
  refine ⟨rfl, ?_⟩
  intro h
  rw [show groupMarkedTokensIntoSegments [MarkedToken.SEGMENT_BREAK] 5 = [] from rfl] at h
  exact List.cons_ne_nil _ _ h.symm

/-- Claim C5 (amended): if the buffer remaining after the last input
element contains at least one non-marker token, it is emitted as a
final segment and the concatenation of all output segments' token lists
equals the entire input list. -/
theorem C5_grouper_trailing_flush (input : List MarkedToken) (maxS : ℚ)
    (h : wordsOf (groupAux maxS [] [] none none input).2.1 ≠ []) :
    groupMarkedTokensIntoSegments input maxS
      = (groupAux maxS [] [] none none input).1
        ++ [⟨(groupAux maxS [] [] none none input).2.2.1,
             (groupAux maxS [] [] none none input).2.2.2,
             (groupAux maxS [] [] none none input).2.1⟩] ∧
    (groupMarkedTokensIntoSegments input maxS).flatMap MarkedSegment.tokens = input := by
  obtain ⟨hst, hsegs, hconcat⟩ :=
    groupAux_invariant maxS input [] [] none none ⟨rfl, rfl⟩ (by intro s hs; simp at hs)
  obtain ⟨h1, h2⟩ := hst
  dsimp only at h1 h2
  have hbuf : (groupAux maxS [] [] none none input).2.1 ≠ [] := by
    intro hemp
    exact h (by rw [hemp]; rfl)
  have hhead : (wordsOf (groupAux maxS [] [] none none input).2.1).head?.isSome := by
    cases hw : (wordsOf (groupAux maxS [] [] none none input).2.1) with
    | nil => exact absurd hw h
    | cons w ws => rfl
  have hlast : (wordsOf (groupAux maxS [] [] none none input).2.1).getLast?.isSome := by
    rw [List.getLast?_isSome]
    exact h
  have hs1 : (groupAux maxS [] [] none none input).2.2.1.isSome := by
    rw [h1]; simpa [firstWordToken] using hhead
  have hs2 : (groupAux maxS [] [] none none input).2.2.2.isSome := by
    rw [h2]; simpa [lastWordToken] using hlast
  have hout : groupMarkedTokensIntoSegments input maxS
      = (groupAux maxS [] [] none none input).1
        ++ [⟨(groupAux maxS [] [] none none input).2.2.1,
             (groupAux maxS [] [] none none input).2.2.2,
             (groupAux maxS [] [] none none input).2.1⟩] := by
    unfold groupMarkedTokensIntoSegments
    rw [if_pos ⟨hbuf, hs1, hs2⟩]
  refine ⟨hout, ?_⟩
  rw [hout]
  simpa using hconcat

/-- Witness for `C5_grouper_trailing_flush` at a concrete input. -/
theorem C5_grouper_trailing_flush_witness :
    wordsOf (groupAux 5 [] [] none none
        [MarkedToken.token ⟨0, 1, "a"⟩]).2.1 ≠ [] ∧
    (groupMarkedTokensIntoSegments [MarkedToken.token ⟨0, 1, "a"⟩] 5).flatMap
        MarkedSegment.tokens = [MarkedToken.token ⟨0, 1, "a"⟩] := by
  have h : wordsOf (groupAux 5 [] [] none none
      [MarkedToken.token ⟨0, 1, "a"⟩]).2.1 ≠ [] := by
    norm_num [groupAux, updateSegmentStart, updateSegmentEnd, runningDuration,
      nextIsDivider, wordsOf]
    decide
  exact ⟨h, (C5_grouper_trailing_flush [MarkedToken.token ⟨0, 1, "a"⟩] 5 h).2⟩

/- ------------------------------------------------------------------ -/
/- Short-Segment Merger (`mergeShortSegmentsWithPrevious`)            -/
/- ------------------------------------------------------------------ -/

/-- The number of non-marker tokens of a marked-token list
(`segment.tokens.filter((t) => t !== SEGMENT_BREAK && t !== ALWAYS_BREAK)`). -/
def countNonMarkerTokens (l : List MarkedToken) : Nat :=
  (l.filter (fun t => !isDivider t)).length

/-- Merging a short segment into the last emitted segment
(`prev.tokens.push(...segment.tokens); prev.end = segment.end`). -/
def appendToLast (result : List MarkedSegment) (segment : MarkedSegment) :
    List MarkedSegment :=
  match result.getLast? with
  | some prev => result.dropLast ++ [⟨prev.start, segment.endTime, prev.tokens ++ segment.tokens⟩]
  | none => result

/-- The loop of `mergeShortSegmentsWithPrevious`. -/
def mergeShortAux (minWordsPerSegment : ℚ) :
    List MarkedSegment → List MarkedSegment → List MarkedSegment
  | result, [] => result
  | result, segment :: rest =>
    if ((countNonMarkerTokens segment.tokens : ℚ) < minWordsPerSegment ∧ result ≠ []) then
      mergeShortAux minWordsPerSegment (appendToLast result segment) rest
    else
      mergeShortAux minWordsPerSegment (result ++ [segment]) rest

/-- `mergeShortSegmentsWithPrevious` from `src/transcript.ts`. -/
def mergeShortSegmentsWithPrevious (segments : List MarkedSegment)
    (minWordsPerSegment : ℚ) : List MarkedSegment :=
  mergeShortAux minWordsPerSegment [] segments

theorem countNonMarkerTokens_append (a b : List MarkedToken) :
    countNonMarkerTokens (a ++ b) = countNonMarkerTokens a + countNonMarkerTokens b := by
  simp [countNonMarkerTokens]

/-- Every segment of `l` except possibly the first has at least
`minW` non-marker tokens. -/
def TailLongEnough (minW : ℚ) (l : List MarkedSegment) : Prop :=
  ∀ s ∈ l.drop 1, minW ≤ (countNonMarkerTokens s.tokens : ℚ)

theorem tailLongEnough_appendToLast (minW : ℚ) (result : List MarkedSegment)
    (segment : MarkedSegment) (h : TailLongEnough minW result) :
    TailLongEnough minW (appendToLast result segment) := by
  match result with
  | [] => exact h
  | [r0] =>
    intro s hs
    simp [appendToLast] at hs
  | r0 :: r1 :: rs =>
    intro s hs
    have hlast : (r0 :: r1 :: rs).getLast? = some ((r1 :: rs).getLast (by simp)) := by
      rw [List.getLast?_cons_cons]
      exact List.getLast?_eq_getLast _ _
    unfold appendToLast at hs
    rw [hlast] at hs
    rw [show (r0 :: r1 :: rs).dropLast = r0 :: (r1 :: rs).dropLast from rfl] at hs
    rw [List.drop_append_of_le_length (by simp)] at hs
    rcases List.mem_append.mp hs with hmem | hmem
    · simp only [List.drop_one, List.tail_cons] at hmem
      exact h s (by
        simp only [List.drop_one, List.tail_cons]
        exact (List.dropLast_sublist (r1 :: rs)).subset hmem)
    · rw [List.mem_singleton.mp hmem]
      have hin : (r1 :: rs).getLast (by simp) ∈ r1 :: rs := List.getLast_mem _
      have hge := h ((r1 :: rs).getLast (by simp)) hin
      rw [countNonMarkerTokens_append]
      have : (countNonMarkerTokens ((r1 :: rs).getLast (by simp)).tokens : ℚ)
          ≤ ((countNonMarkerTokens ((r1 :: rs).getLast (by simp)).tokens
              + countNonMarkerTokens segment.tokens : ℕ) : ℚ) := by
        push_cast
        linarith [Nat.cast_nonneg (α := ℚ) (countNonMarkerTokens segment.tokens)]
      exact le_trans hge this

theorem mergeShortAux_invariant (minW : ℚ) (input : List MarkedSegment) :
    ∀ result, TailLongEnough minW result →
    TailLongEnough minW (mergeShortAux minW result input) := by
  induction input with
  | nil => intro result h; exact h
  | cons segment rest ih =>
    intro result h
    by_cases hcond : ((countNonMarkerTokens segment.tokens : ℚ) < minW ∧ result ≠ [])
    · rw [show mergeShortAux minW result (segment :: rest)
          = mergeShortAux minW (appendToLast result segment) rest by
        simp only [mergeShortAux]; rw [if_pos hcond]]
      exact ih _ (tailLongEnough_appendToLast minW result segment h)
    · rw [show mergeShortAux minW result (segment :: rest)
          = mergeShortAux minW (result ++ [segment]) rest by
        simp only [mergeShortAux]; rw [if_neg hcond]]
      refine ih _ ?_
      intro s hs
      match result with
      | [] =>
        simp at hs
      | r0 :: rs =>
        rw [List.drop_append_of_le_length (by simp)] at hs
        rcases List.mem_append.mp hs with hmem | hmem
        · exact h s hmem
        · rw [List.mem_singleton.mp hmem]
          rcases not_and_or.mp hcond with hge | hne
        <;> first
          | exact le_of_not_lt hge
          | exact absurd (by simp) hne

/-- Claim C7: after the Short-Segment Merger, every output segment
except possibly the very first has at least `minWords` non-marker
tokens. -/
theorem C7_merge_monotonicity (segments : List MarkedSegment) (minW : ℚ)
    (s : MarkedSegment) (hs : s ∈ (mergeShortSegmentsWithPrevious segments minW).drop 1) :
    minW ≤ (countNonMarkerTokens s.tokens : ℚ) :=
  mergeShortAux_invariant minW segments [] (by intro x hx; simp at hx) s hs

/-- Witness for `C7_merge_monotonicity` at a concrete segment list. -/
theorem C7_merge_monotonicity_witness :
    (⟨some 2, some 4, [MarkedToken.token ⟨2, 3, "c"⟩, MarkedToken.token ⟨3, 4, "d"⟩]⟩ :
        MarkedSegment) ∈
      (mergeShortSegmentsWithPrevious
        [⟨some 0, some 2, [MarkedToken.token ⟨0, 1, "a"⟩, MarkedToken.token ⟨1, 2, "b"⟩]⟩,
         ⟨some 2, some 4, [MarkedToken.token ⟨2, 3, "c"⟩, MarkedToken.token ⟨3, 4, "d"⟩]⟩]
        1).drop 1 ∧
    (1 : ℚ) ≤ (countNonMarkerTokens
        [MarkedToken.token ⟨2, 3, "c"⟩, MarkedToken.token ⟨3, 4, "d"⟩] : ℚ) := by
  have hmem : (⟨some 2, some 4,
      [MarkedToken.token ⟨2, 3, "c"⟩, MarkedToken.token ⟨3, 4, "d"⟩]⟩ : MarkedSegment) ∈
      (mergeShortSegmentsWithPrevious
        [⟨some 0, some 2, [MarkedToken.token ⟨0, 1, "a"⟩, MarkedToken.token ⟨1, 2, "b"⟩]⟩,
         ⟨some 2, some 4, [MarkedToken.token ⟨2, 3, "c"⟩, MarkedToken.token ⟨3, 4, "d"⟩]⟩]
        1).drop 1 := by
    norm_num [mergeShortSegmentsWithPrevious, mergeShortAux, countNonMarkerTokens,
      isDivider, appendToLast]
  exact ⟨hmem, C7_merge_monotonicity _ 1 _ hmem⟩

/- ------------------------------------------------------------------ -/
/- Claim C9: boundary invariant of grouper and merger outputs         -/
/- ------------------------------------------------------------------ -/

theorem boundaryGood_merge (prev segment : MarkedSegment)
    (hp : BoundaryGood prev) (hpw : wordsOf prev.tokens ≠ [])
    (hg : BoundaryGood segment) (hgw : wordsOf segment.tokens ≠ []) :
    BoundaryGood ⟨prev.start, segment.endTime, prev.tokens ++ segment.tokens⟩ := by
  constructor
  · show prev.start = (firstWordToken (prev.tokens ++ segment.tokens)).map Token.start
    rw [hp.1]
    simp only [firstWordToken, wordsOf_append]
    rw [List.head?_append_of_ne_nil _ hpw]
  · show segment.endTime = (lastWordToken (prev.tokens ++ segment.tokens)).map Token.endTime
    rw [hg.2]
    simp only [lastWordToken, wordsOf_append]
    rw [List.getLast?_append_of_ne_nil _ hgw]

theorem mergeShortAux_boundary (minW : ℚ) (input : List MarkedSegment) :
    ∀ result,
    (∀ s ∈ input, BoundaryGood s ∧ wordsOf s.tokens ≠ []) →
    (∀ s ∈ result, BoundaryGood s ∧ wordsOf s.tokens ≠ []) →
    ∀ s2 ∈ mergeShortAux minW result input, BoundaryGood s2 ∧ wordsOf s2.tokens ≠ [] := by
  induction input with
  | nil => intro result _ hres; exact hres
  | cons segment rest ih =>
    intro result hin hres
    have hseg := hin segment (List.mem_cons_self _ _)
    have hin2 : ∀ s ∈ rest, BoundaryGood s ∧ wordsOf s.tokens ≠ [] := by
      intro s hs; exact hin s (List.mem_cons_of_mem _ hs)
    by_cases hcond : ((countNonMarkerTokens segment.tokens : ℚ) < minW ∧ result ≠ [])
    · rw [show mergeShortAux minW result (segment :: rest)
          = mergeShortAux minW (appendToLast result segment) rest by
        simp only [mergeShortAux]; rw [if_pos hcond]]
      refine ih _ hin2 ?_
      intro s hs
      unfold appendToLast at hs
      match hlast : result.getLast? with
      | none => rw [hlast] at hs; exact hres s hs
      | some prev =>
        rw [hlast] at hs
        rcases List.mem_append.mp hs with hmem | hmem
        · exact hres s ((List.dropLast_sublist result).subset hmem)
        · rw [List.mem_singleton.mp hmem]
          have hprev := hres prev (List.mem_of_mem_getLast? hlast)
          refine ⟨boundaryGood_merge prev segment hprev.1 hprev.2 hseg.1 hseg.2, ?_⟩
          show wordsOf (prev.tokens ++ segment.tokens) ≠ []
          rw [wordsOf_append]
          intro hemp
          exact hprev.2 (List.append_eq_nil.mp hemp).1
    · rw [show mergeShortAux minW result (segment :: rest)
          = mergeShortAux minW (result ++ [segment]) rest by
        simp only [mergeShortAux]; rw [if_neg hcond]]
      refine ih _ hin2 ?_
      intro s hs
      rcases List.mem_append.mp hs with hmem | hmem
      · exact hres s hmem
      · rw [List.mem_singleton.mp hmem]; exact hseg

/-- Claim C9: every segment emitted by the grouper satisfies the
boundary invariant (start/end are the start of the first and the end of
the last non-marker token), and the merger preserves it when all its
input segments satisfy it and contain at least one non-marker token. -/
theorem C9_boundary_invariant :
    (∀ (input : List MarkedToken) (maxS : ℚ) seg,
       seg ∈ groupMarkedTokensIntoSegments input maxS → BoundaryGood seg) ∧
    (∀ (segments : List MarkedSegment) (minW : ℚ),
       (∀ s ∈ segments, BoundaryGood s ∧ wordsOf s.tokens ≠ []) →
       ∀ s2 ∈ mergeShortSegmentsWithPrevious segments minW, BoundaryGood s2) := by
  constructor
  · intro input maxS seg hseg
    obtain ⟨hst, hsegs, _⟩ :=
      groupAux_invariant maxS input [] [] none none ⟨rfl, rfl⟩ (by intro s hs; simp at hs)
    unfold groupMarkedTokensIntoSegments at hseg
    by_cases hfin : ((groupAux maxS [] [] none none input).2.1 ≠ [] ∧
        (groupAux maxS [] [] none none input).2.2.1.isSome ∧
        (groupAux maxS [] [] none none input).2.2.2.isSome)
    · rw [if_pos hfin] at hseg
      rcases List.mem_append.mp hseg with hmem | hmem
      · exact hsegs seg hmem
      · rw [List.mem_singleton.mp hmem]
        exact hst
    · rw [if_neg hfin] at hseg
      exact hsegs seg hseg
  · intro segments minW hin s2 hs2
    exact (mergeShortAux_boundary minW segments [] hin (by intro s hs; simp at hs) s2 hs2).1

/-- Witness for `C9_boundary_invariant` at a concrete grouper run. -/
theorem C9_boundary_invariant_witness :
    (⟨some 0, some 1, [MarkedToken.token ⟨0, 1, "a"⟩]⟩ : MarkedSegment) ∈
      groupMarkedTokensIntoSegments [MarkedToken.token ⟨0, 1, "a"⟩] 5 ∧
    BoundaryGood ⟨some 0, some 1, [MarkedToken.token ⟨0, 1, "a"⟩]⟩ := by
  have hmem : (⟨some 0, some 1, [MarkedToken.token ⟨0, 1, "a"⟩]⟩ : MarkedSegment) ∈
      groupMarkedTokensIntoSegments [MarkedToken.token ⟨0, 1, "a"⟩] 5 := by
    norm_num [groupMarkedTokensIntoSegments, groupAux, updateSegmentStart,
      updateSegmentEnd, runningDuration, nextIsDivider]
  exact ⟨hmem, C9_boundary_invariant.1 [MarkedToken.token ⟨0, 1, "a"⟩] 5 _ hmem⟩

/- ------------------------------------------------------------------ -/
/- Formatter (`formatSegmentsToTimestampedTranscript`)                -/
/- ------------------------------------------------------------------ -/

/-- JavaScript truncating division result used by `%`: truncation of a
rational toward zero. -/
def jsTrunc (x : ℚ) : ℤ :=
  if 0 ≤ x then ⌊x⌋ else ⌈x⌉

/-- The JavaScript remainder operator `a % b`
(`a - b * trunc(a / b)`). -/
def jsMod (a b : ℚ) : ℚ :=
  a - b * (jsTrunc (a / b) : ℚ)

/-- `String.padStart(2, '0')`. -/
def padTwo (s : String) : String :=
  if s.length < 2 then String.mk (List.replicate (2 - s.length) '0') ++ s else s

/-- `formatSecondsToTimestamp` from `src/utils/textUtils.ts`:
`m:ss` below one hour, `h:mm:ss` otherwise. -/
def formatSecondsToTimestamp (seconds : ℚ) : String :=
  let hrs : ℤ := ⌊seconds / 3600⌋
  let mins : ℤ := ⌊jsMod seconds 3600 / 60⌋
  let secs : ℤ := ⌊jsMod seconds 60⌋
  if 0 < hrs then
    toString hrs ++ ":" ++ padTwo (toString mins) ++ ":" ++ padTwo (toString secs)
  else
    toString mins ++ ":" ++ padTwo (toString secs)

/-- The per-segment state of the formatting loop: the emitted lines,
the token buffer of the current line and `bufferStart`. -/
structure LineState where
  lines : List String
  buffer : List Token
  bufferStart : Option ℚ
deriving DecidableEq

/-- `pushBufferAsLine` of `formatSegmentsToTimestampedTranscript`
(without the optional `formatTokens` argument, so the default
timestamp-prefixed rendering): a no-op on an empty buffer. -/
def pushBufferAsLine (st : LineState) : LineState :=
  match st.buffer with
  | [] => st
  | b0 :: _ =>
    { lines := st.lines ++ [formatSecondsToTimestamp b0.start ++ ": "
        ++ String.intercalate " " (st.buffer.map (fun t => t.text))],
      buffer := [], bufferStart := none }

/-- Whether the last buffered token ends with sentence punctuation. -/
def lastEndsWithPunctuation (buffer : List Token) : Bool :=
  match buffer.getLast? with
  | some t => isEndingWithPunctuation t.text
  | none => false

/-- One iteration of the token loop of
`formatSegmentsToTimestampedTranscript`: a `ALWAYS_BREAK` always
flushes, a `SEGMENT_BREAK` flushes when
`duration >= maxSecondsPerLine && buffer.length > 0 && punctuation`,
and a word token is appended to the buffer. -/
def formatStep (maxSecondsPerLine : ℚ) (st : LineState) : MarkedToken → LineState
  | MarkedToken.ALWAYS_BREAK => pushBufferAsLine st
  | MarkedToken.SEGMENT_BREAK =>
    if maxSecondsPerLine ≤
        runningDuration st.bufferStart ((st.buffer.getLast?).map Token.endTime)
        ∧ st.buffer ≠ [] ∧ lastEndsWithPunctuation st.buffer = true then
      pushBufferAsLine st
    else st
  | MarkedToken.token t =>
    { lines := st.lines,
      buffer := st.buffer ++ [t],
      bufferStart := match st.bufferStart with
        | none => some t.start
        | some s => some s }

/-- Per-segment processing: fold the token loop and flush the trailing
buffer. -/
def formatSegmentLines (maxSecondsPerLine : ℚ) (lines : List String)
    (segment : MarkedSegment) : List String :=
  (pushBufferAsLine (segment.tokens.foldl (formatStep maxSecondsPerLine)
    ⟨lines, [], none⟩)).lines

/-- `formatSegmentsToTimestampedTranscript` from `src/transcript.ts`. -/
def formatSegmentsToTimestampedTranscript (segments : List MarkedSegment)
    (maxSecondsPerLine : ℚ) : String :=
  String.intercalate "\n"
    (segments.foldl (formatSegmentLines maxSecondsPerLine) [])

/-- Counterexample to claim C6: on a `SEGMENT_BREAK` the formatter
flushes when the buffered duration *equals* `maxSecondsPerLine`
(the source condition is `>=`), so flushing does not require the
duration to strictly exceed the cap. -/
theorem C6_counterexample :
    (formatStep 2 ⟨[], [⟨0, 2, "a."⟩], some 0⟩ MarkedToken.SEGMENT_BREAK).lines.length
      = 0 + 1 ∧
    ¬ ((2 : ℚ) - 0 > 2) := by
  have hc : (2 : ℚ) ≤ runningDuration
        ((⟨[], [⟨0, 2, "a."⟩], some 0⟩ : LineState).bufferStart)
        ((((⟨[], [⟨0, 2, "a."⟩], some 0⟩ : LineState).buffer.getLast?).map Token.endTime))
      ∧ (⟨[], [⟨0, 2, "a."⟩], some 0⟩ : LineState).buffer ≠ []
      ∧ lastEndsWithPunctuation (⟨[], [⟨0, 2, "a."⟩], some 0⟩ : LineState).buffer = true := by
    refine ⟨?_, by simp, by decide⟩
    norm_num [runningDuration]
  constructor
  · show (formatStep 2 ⟨[], [⟨0, 2, "a."⟩], some 0⟩ MarkedToken.SEGMENT_BREAK).lines.length
      = 0 + 1
    rw [show formatStep 2 ⟨[], [⟨0, 2, "a."⟩], some 0⟩ MarkedToken.SEGMENT_BREAK
        = pushBufferAsLine ⟨[], [⟨0, 2, "a."⟩], some 0⟩ from by
      simp only [formatStep]; rw [if_pos hc]]
    simp [pushBufferAsLine]
  · norm_num

/-- Claim C6 (amended): in the formatter loop, an `ALWAYS_BREAK`
always flushes the (non-empty) buffer as one line, and a
`SEGMENT_BREAK` flushes exactly when the buffered duration (last
buffered token's end minus first buffered token's start) is at least
`maxSecondsPerLine` (the source uses `>=`, not strict excess) and the
last buffered token ends with sentence punctuation. -/
theorem C6_formatter_flush_amended (maxS : ℚ) (st : LineState)
    (hbs : st.bufferStart = (st.buffer.head?).map Token.start) :
    (st.buffer ≠ [] →
      (formatStep maxS st MarkedToken.ALWAYS_BREAK).lines.length = st.lines.length + 1 ∧
      (formatStep maxS st MarkedToken.ALWAYS_BREAK).buffer = []) ∧
    ((formatStep maxS st MarkedToken.SEGMENT_BREAK).lines.length = st.lines.length + 1 ↔
      ∃ f l, st.buffer.head? = some f ∧ st.buffer.getLast? = some l ∧
        maxS ≤ l.endTime - f.start ∧ isEndingWithPunctuation l.text = true) := by
  constructor
  · intro hne
    match hb : st.buffer with
    | [] => exact absurd hb hne
    | b0 :: bs =>
      show ((pushBufferAsLine st).lines.length = st.lines.length + 1)
        ∧ (pushBufferAsLine st).buffer = []
      unfold pushBufferAsLine
      rw [hb]
      simp
  · by_cases hcond : (maxS ≤
        runningDuration st.bufferStart ((st.buffer.getLast?).map Token.endTime)
        ∧ st.buffer ≠ [] ∧ lastEndsWithPunctuation st.buffer = true)
    · rw [show formatStep maxS st MarkedToken.SEGMENT_BREAK = pushBufferAsLine st from by
        simp only [formatStep]; rw [if_pos hcond]]
      obtain ⟨hdur, hne, hpunct⟩ := hcond
      match hb : st.buffer with
      | [] => exact absurd hb hne
      | b0 :: bs =>
        constructor
        · intro _
          obtain ⟨l, hl⟩ := Option.ne_none_iff_exists'.mp
            (mt List.getLast?_eq_none_iff.mp (hb ▸ hne))
          refine ⟨b0, l, rfl, hl, ?_, ?_⟩
          · rw [hb] at hbs
            rw [hb, hl] at hdur
            simp only [List.head?, Option.map_some'] at hbs
            rw [hbs] at hdur
            simpa [runningDuration] using hdur
          · rw [hb] at hpunct
            unfold lastEndsWithPunctuation at hpunct
            rw [hl] at hpunct
            exact hpunct
        · intro _
          unfold pushBufferAsLine
          rw [hb]
          simp
    · rw [show formatStep maxS st MarkedToken.SEGMENT_BREAK = st from by
        simp only [formatStep]; rw [if_neg hcond]]
      constructor
      · intro habs
        omega
      · intro hex
        obtain ⟨f, l, hf, hl, hd, hp⟩ := hex
        exfalso
        apply hcond
        have hne : st.buffer ≠ [] := by
          intro hemp
          rw [hemp] at hf
          exact Option.noConfusion hf
        refine ⟨?_, hne, ?_⟩
        · rw [hbs, hf, hl]
          simpa [runningDuration] using hd
        · unfold lastEndsWithPunctuation
          rw [hl]
          exact hp

/-- Witness for `C6_formatter_flush_amended` at a concrete state. -/
theorem C6_formatter_flush_amended_witness :
    ((⟨[], [⟨0, 3, "a."⟩], some 0⟩ : LineState).buffer ≠ [] →
      (formatStep 2 ⟨[], [⟨0, 3, "a."⟩], some 0⟩ MarkedToken.ALWAYS_BREAK).lines.length
          = ([] : List String).length + 1 ∧
      (formatStep 2 ⟨[], [⟨0, 3, "a."⟩], some 0⟩ MarkedToken.ALWAYS_BREAK).buffer = []) ∧
    ((formatStep 2 ⟨[], [⟨0, 3, "a."⟩], some 0⟩ MarkedToken.SEGMENT_BREAK).lines.length
        = ([] : List String).length + 1 ↔
      ∃ f l, ([⟨0, 3, "a."⟩] : List Token).head? = some f ∧
        ([⟨0, 3, "a."⟩] : List Token).getLast? = some l ∧
        (2 : ℚ) ≤ l.endTime - f.start ∧ isEndingWithPunctuation l.text = true) :=
  C6_formatter_flush_amended 2 ⟨[], [⟨0, 3, "a."⟩], some 0⟩ rfl

/- ------------------------------------------------------------------ -/
/- Ground-truth tokenization and normalization                        -/
/- ------------------------------------------------------------------ -/

/-- Whitespace characters of the JavaScript `\s` class (used by the
`/\s+/` split and by `String.prototype.trim`): ASCII whitespace plus
the Unicode space separators, the line and paragraph separators,
no-break and narrow no-break spaces, and the byte-order mark. -/
def isWhitespaceChar (c : Char) : Bool :=
  c = ' ' || c = '\t' || c = '\n' || c = '\r' ||
  c.toNat = 0x0B || c.toNat = 0x0C || c.toNat = 0xA0 || c.toNat = 0x1680 ||
  (0x2000 ≤ c.toNat && c.toNat ≤ 0x200A) ||
  c.toNat = 0x2028 || c.toNat = 0x2029 || c.toNat = 0x202F ||
  c.toNat = 0x205F || c.toNat = 0x3000 || c.toNat = 0xFEFF

/-- Punctuation/symbol characters: a decidable restriction of the
Unicode `\p{P}`/`\p{S}` classes to the repertoire exercised by this
development — the ASCII punctuation and symbol ranges, the guillemets,
the general-punctuation block (which contains the ellipsis), and the
Arabic question mark, comma, semicolon, percent and star. -/
def isPunctuationOrSymbolChar (c : Char) : Bool :=
  (33 ≤ c.toNat && c.toNat ≤ 47) || (58 ≤ c.toNat && c.toNat ≤ 64) ||
  (91 ≤ c.toNat && c.toNat ≤ 96) || (123 ≤ c.toNat && c.toNat ≤ 126) ||
  c.toNat = 0xAB || c.toNat = 0xBB ||
  (0x2010 ≤ c.toNat && c.toNat ≤ 0x2027) ||
  (0x2030 ≤ c.toNat && c.toNat ≤ 0x205E) ||
  c = '؟' || c = '،' || c = '؛' || c.toNat = 0x66A || c.toNat = 0x66D

/-- The raw-token pass of `tokenizeGroundTruth`
(`groundTruth.trim().split(/\s+/).map((t) => t.trim()).filter(Boolean)`):
the maximal non-whitespace runs of the input, in order (the inner
`trim` is the identity on such runs and `filter(Boolean)` drops the
empty pieces the split produces at the boundaries, so the composite is
exactly the run decomposition).  `acc` holds the characters of the
current run, reversed. -/
def splitWhitespaceAux : List Char → List Char → List String
  | [], acc => if acc = [] then [] else [String.mk acc.reverse]
  | c :: cs, acc =>
    if isWhitespaceChar c then
      if acc = [] then splitWhitespaceAux cs []
      else String.mk acc.reverse :: splitWhitespaceAux cs []
    else splitWhitespaceAux cs (c :: acc)

/-- The attachment loop of `tokenizeGroundTruth`: a raw token matching
`/^[\p{P}\p{S}]+$/u` is concatenated onto the previous word when one
exists (`result[result.length - 1] += token`), otherwise the token is
pushed.  `acc` is the `result` array, reversed. -/
def attachPunctuationAux : List String → List String → List String
  | acc, [] => acc.reverse
  | [], t :: ts => attachPunctuationAux [t] ts
  | prev :: accRest, t :: ts =>
    if t.toList ≠ [] ∧ t.toList.all isPunctuationOrSymbolChar then
      attachPunctuationAux ((prev ++ t) :: accRest) ts
    else attachPunctuationAux (t :: prev :: accRest) ts

/-- `tokenizeGroundTruth` from `src/src/utils/textUtils.ts`: split the
ground truth on whitespace runs, then attach punctuation-only tokens
to the preceding word. -/
def tokenizeGroundTruth (s : String) : List String :=
  attachPunctuationAux [] (splitWhitespaceAux s.toList [])

/-- Concrete normalization used to evaluate witnesses: the
restriction of `normalizeWord` from `src/src/utils/textUtils.ts` to
the character repertoire exercised here — it removes the Arabic
diacritic marks U+064B..U+065F and strips leading/trailing
punctuation/symbol characters (the NFD/NFC round-trip and the
zero-width and combining-mark removals of the source are the identity
on these inputs).  The aligner and miner themselves are parameterized
by the normalization function. -/
def normalizeWordModel (w : String) : String :=
  let noDiacritics := w.toList.filter (fun c => !(0x64B ≤ c.toNat && c.toNat ≤ 0x65F))
  String.mk (((noDiacritics.dropWhile isPunctuationOrSymbolChar).reverse.dropWhile
    isPunctuationOrSymbolChar).reverse)

/- ------------------------------------------------------------------ -/
/- LCS table and backtracking (src/utils/lcs.ts)                      -/
/- ------------------------------------------------------------------ -/

/-- One cell sweep of a DP row: `row[j+1] = prevRow[j] + 1` on a match,
else `max prevRow[j+1] row[j]` (`cur` is `row[j]`). -/
def lcsRowAux (ai : String) : List String → List Nat → Nat → List Nat
  | [], _, _ => []
  | bj :: bs, prevRow, cur =>
    let diag := prevRow.headD 0
    let up := (prevRow.drop 1).headD 0
    let v := if ai = bj then diag + 1 else max up cur
    v :: lcsRowAux ai bs (prevRow.drop 1) v

/-- Row `i+1` of the LCS table from row `i`. -/
def lcsNextRow (prevRow : List Nat) (ai : String) (b : List String) : List Nat :=
  0 :: lcsRowAux ai b prevRow 0

def buildTableAux (b : List String) : List String → List Nat → List (List Nat)
  | [], _ => []
  | ai :: arest, prevRow =>
    lcsNextRow prevRow ai b :: buildTableAux b arest (lcsNextRow prevRow ai b)

/-- `buildLcsTable` from `src/utils/lcs.ts`: the
`(a.length + 1) x (b.length + 1)` dynamic-programming table. -/
def buildLcsTable (a b : List String) : List (List Nat) :=
  List.replicate (b.length + 1) 0 :: buildTableAux b a (List.replicate (b.length + 1) 0)

/-- `table[i][j]` (0 when out of range; the source never reads out of
range). -/
def tableGet (table : List (List Nat)) (i j : Nat) : Nat :=
  ((table.drop i).headD []).getD j 0

/-- Fuel-indexed backtracking loop of `extractLcsMatches`; each step
decreases `i + j`, so the initial fuel `i + j` suffices.  The returned
association list is in insertion order of the source `Map` (matches
with larger indices first). -/
def extractLcsAux (table : List (List Nat)) (original ground : List String) :
    Nat → Nat → Nat → List (Nat × Nat)
  | 0, _, _ => []
  | fuel + 1, i, j =>
    match i, j with
    | 0, _ => []
    | _ + 1, 0 => []
    | i1 + 1, j1 + 1 =>
      if original.getD i1 "" = ground.getD j1 "" then
        (i1, j1) :: extractLcsAux table original ground fuel i1 j1
      else if tableGet table (i1 + 1) j1 ≤ tableGet table i1 (j1 + 1) then
        extractLcsAux table original ground fuel i1 (j1 + 1)
      else
        extractLcsAux table original ground fuel (i1 + 1) j1

/-- `extractLcsMatches` from `src/utils/lcs.ts`: the matched index
pairs, as an insertion-ordered map from token index to ground-truth
index. -/
def extractLcsMatches (table : List (List Nat)) (original ground : List String) :
    List (Nat × Nat) :=
  extractLcsAux table original ground (original.length + ground.length)
    original.length ground.length

/- ------------------------------------------------------------------ -/
/- Anchors (findAnchors, src/utils/transcriptUtils.ts)                -/
/- ------------------------------------------------------------------ -/

/-- `Map.set` on an insertion-ordered association list: update in
place when the key exists, append otherwise. -/
def mapSet (m : List (Nat × Nat)) (k v : Nat) : List (Nat × Nat) :=
  if m.any (fun p => p.1 = k) then
    m.map (fun p => if p.1 = k then (k, v) else p)
  else m ++ [(k, v)]

/-- Insertion step of the stable ascending sort by first component
(`.sort((a, b) => a[0] - b[0])`; all keys are distinct here). -/
def insertByKey (p : Nat × Nat) : List (Nat × Nat) → List (Nat × Nat)
  | [] => [p]
  | q :: rest => if p.1 < q.1 then p :: q :: rest else q :: insertByKey p rest

def sortByKey : List (Nat × Nat) → List (Nat × Nat)
  | [] => []
  | p :: rest => insertByKey p (sortByKey rest)

/-- The monotonicity filter
`.filter((v, i, a) => !i || v[1] > a[i - 1][1])`: each element is
compared with the *previous element of the sorted array* (not the
previous kept element). -/
def keepAux : (Nat × Nat) → List (Nat × Nat) → List (Nat × Nat)
  | _, [] => []
  | prev, v :: rest =>
    if prev.2 < v.2 then v :: keepAux v rest else keepAux v rest

def keepIncreasing : List (Nat × Nat) → List (Nat × Nat)
  | [] => []
  | x :: rest => x :: keepAux x rest

/-- `findAnchors` from `src/utils/transcriptUtils.ts`: LCS matches of
the normalized sequences, forced anchors `0 -> 0` and (when both
sequences have more than one element) `last -> last`, sorted by token
index and filtered to strictly increasing ground-truth indices. -/
def findAnchors (norm : String → String) (tokens : List Token)
    (groundTruthWords : List String) : List (Nat × Nat) :=
  let normalizedTokens := tokens.map (fun t => norm t.text)
  let normalizedGTWords := groundTruthWords.map norm
  let lcsTable := buildLcsTable normalizedTokens normalizedGTWords
  let m0 := extractLcsMatches lcsTable normalizedTokens normalizedGTWords
  let m1 := mapSet m0 0 0
  let m2 := if 1 < tokens.length ∧ 1 < groundTruthWords.length then
      mapSet m1 (tokens.length - 1) (groundTruthWords.length - 1)
    else m1
  keepIncreasing (sortByKey m2)

/- ------------------------------------------------------------------ -/
/- Gap processing and syncing (src/utils/transcriptUtils.ts)          -/
/- ------------------------------------------------------------------ -/

def defaultToken : Token := ⟨0, 0, ""⟩

/-- `createInsertionToken`: time window of a synthesized token,
distributing `max(0, next.start - prev.end)` over the words inserted
in the gap. -/
def createInsertionToken (text : String) (gtGapLen tokenGapLen gtGapIndex : Nat)
    (nextToken : Token) (prevToken : Option Token) : Token :=
  let gapStartTime : ℚ := match prevToken with
    | some p => p.endTime
    | none => 0
  let gapEndTime := nextToken.start
  let timeAvailable := max 0 (gapEndTime - gapStartTime)
  let itemsToInsert : ℤ := (gtGapLen : ℤ) - (tokenGapLen : ℤ)
  let timePerItem : ℚ := if 0 < itemsToInsert then timeAvailable / (itemsToInsert : ℚ) else 0
  let insertionIndex : ℤ := (gtGapIndex : ℤ) - (tokenGapLen : ℤ)
  let start := gapStartTime + (insertionIndex : ℚ) * timePerItem
  { start := start, endTime := start + timePerItem, text := text }

/-- The insertion tail of the gap loop: the token gap is exhausted, so
each remaining ground-truth word is synthesized.  `gi` is the running
`gtGapIndex`. -/
def gapInsertLoop (gtGapAll : List String) (tokenGapLen : Nat) (nextToken : Token)
    (prevToken : Option Token) : List String → Nat → List GroundedToken
  | [], _ => []
  | g :: gs, gi =>
    let ins := createInsertionToken g gtGapAll.length tokenGapLen gi nextToken prevToken
    ⟨ins.start, ins.endTime, ins.text, false⟩ ::
      gapInsertLoop gtGapAll tokenGapLen nextToken prevToken gs (gi + 1)

/-- The unknown tail of the gap loop: the ground-truth gap is
exhausted, so each remaining token is marked unknown. -/
def gapUnknownLoop : List Token → List GroundedToken
  | [] => []
  | t :: ts => ⟨t.start, t.endTime, t.text, true⟩ :: gapUnknownLoop ts

/-- The gap reconciliation loop of `processGaps`: substitution while
both lists have items, unknown-marking for leftover tokens, insertion
for leftover ground-truth words. -/
def gapMergeAux (gtGapAll : List String) (tokenGapLen : Nat) (nextToken : Token)
    (prevToken : Option Token) : List Token → List String → Nat → List GroundedToken
  | [], gs, gi => gapInsertLoop gtGapAll tokenGapLen nextToken prevToken gs gi
  | t :: ts, [], _ => ⟨t.start, t.endTime, t.text, true⟩ :: gapUnknownLoop ts
  | t :: ts, g :: gs, gi =>
    ⟨t.start, t.endTime, g, false⟩ ::
      gapMergeAux gtGapAll tokenGapLen nextToken prevToken ts gs (gi + 1)

/-- `processGaps`: walk the anchors, reconcile each gap, then emit the
anchor token with its ground-truth word.  `startT`/`startG` are
`lastTokenIndex + 1` / `lastGtIndex + 1` (the `-1` sentinels of the
source become `0`); the returned pair carries their final values. -/
def processGapsAux (tokens : List Token) (words : List String) :
    Nat → Nat → Option Token → List (Nat × Nat) → List GroundedToken × Nat × Nat
  | startT, startG, _, [] => ([], startT, startG)
  | startT, startG, prevTok, (ct, cg) :: rest =>
    let tokenGap := (tokens.drop startT).take (ct - startT)
    let gtGap := (words.drop startG).take (cg - startG)
    let anchorSrc := (tokens.drop ct).headD defaultToken
    let block := gapMergeAux gtGap tokenGap.length anchorSrc prevTok tokenGap gtGap 0
    let anchorTok : GroundedToken :=
      ⟨anchorSrc.start, anchorSrc.endTime, (words.drop cg).headD "", false⟩
    let r := processGapsAux tokens words (ct + 1) (cg + 1) (some anchorSrc) rest
    (block ++ anchorTok :: r.1, r.2.1, r.2.2)

/-- `processFinalTail`: after the last anchor, leftover ground-truth
words make the tail a no-op; otherwise leftover tokens are marked
unknown. -/
def processFinalTail (tokens : List Token) (words : List String)
    (startT startG : Nat) : List GroundedToken :=
  if 0 < (words.drop startG).length then []
  else (tokens.drop startT).map (fun t => ⟨t.start, t.endTime, t.text, true⟩)

/-- The non-degenerate path of `syncTokensWithGroundTruth`: find the
anchors, process the gaps, process the final tail. -/
def syncCore (norm : String → String) (tokens : List Token)
    (words : List String) : List GroundedToken :=
  (processGapsAux tokens words 0 0 none (findAnchors norm tokens words)).1
  ++ processFinalTail tokens words
      (processGapsAux tokens words 0 0 none (findAnchors norm tokens words)).2.1
      (processGapsAux tokens words 0 0 none (findAnchors norm tokens words)).2.2

/-- `syncTokensWithGroundTruth` from `src/utils/transcriptUtils.ts`,
parameterized by the (out-of-scope) word normalizer. -/
def syncTokensWithGroundTruth (norm : String → String) (tokens : List Token)
    (groundTruth : String) : List GroundedToken :=
  if tokens.length = 0 then []
  else if (tokenizeGroundTruth groundTruth).length = 0 then
    tokens.map (fun t => ⟨t.start, t.endTime, t.text, true⟩)
  else syncCore norm tokens (tokenizeGroundTruth groundTruth)

/- ------------------------------------------------------------------ -/
/- Anchor-structure lemmas                                            -/
/- ------------------------------------------------------------------ -/

theorem extractLcsAux_keys_lt (table : List (List Nat)) (original ground : List String) :
    ∀ fuel i j, ∀ p ∈ extractLcsAux table original ground fuel i j, p.1 < i ∧ p.2 < j := by
  intro fuel
  induction fuel with
  | zero => intro i j p hp; simp [extractLcsAux] at hp
  | succ fuel ih =>
    intro i j p hp
    match i, j with
    | 0, j => simp [extractLcsAux] at hp
    | i1 + 1, 0 => simp [extractLcsAux] at hp
    | i1 + 1, j1 + 1 =>
      simp only [extractLcsAux] at hp
      by_cases heq : original.getD i1 "" = ground.getD j1 ""
      · rw [if_pos heq] at hp
        rcases List.mem_cons.mp hp with h | h
        · rw [h]; exact ⟨Nat.lt_succ_self i1, Nat.lt_succ_self j1⟩
        · obtain ⟨a, b⟩ := ih i1 j1 p h
          exact ⟨Nat.lt_succ_of_lt a, Nat.lt_succ_of_lt b⟩
      · rw [if_neg heq] at hp
        by_cases hcmp : tableGet table (i1 + 1) j1 ≤ tableGet table i1 (j1 + 1)
        · rw [if_pos hcmp] at hp
          obtain ⟨a, b⟩ := ih i1 (j1 + 1) p hp
          exact ⟨Nat.lt_succ_of_lt a, b⟩
        · rw [if_neg hcmp] at hp
          obtain ⟨a, b⟩ := ih (i1 + 1) j1 p hp
          exact ⟨a, Nat.lt_succ_of_lt b⟩

theorem extractLcsAux_pairwise (table : List (List Nat)) (original ground : List String) :
    ∀ fuel i j, List.Pairwise (fun p q => q.1 < p.1)
      (extractLcsAux table original ground fuel i j) := by
  intro fuel
  induction fuel with
  | zero => intro i j; simp [extractLcsAux]
  | succ fuel ih =>
    intro i j
    match i, j with
    | 0, j => simp [extractLcsAux]
    | i1 + 1, 0 => simp [extractLcsAux]
    | i1 + 1, j1 + 1 =>
      simp only [extractLcsAux]
      by_cases heq : original.getD i1 "" = ground.getD j1 ""
      · rw [if_pos heq]
        refine List.Pairwise.cons ?_ (ih i1 j1)
        intro q hq
        exact (extractLcsAux_keys_lt table original ground fuel i1 j1 q hq).1
      · rw [if_neg heq]
        by_cases hcmp : tableGet table (i1 + 1) j1 ≤ tableGet table i1 (j1 + 1)
        · rw [if_pos hcmp]; exact ih i1 (j1 + 1)
        · rw [if_neg hcmp]; exact ih (i1 + 1) j1

/-- Distinctness of the keys of an association list. -/
def keysNodup (l : List (Nat × Nat)) : Prop :=
  (l.map Prod.fst).Nodup

theorem extractLcsMatches_keysNodup (table : List (List Nat))
    (original ground : List String) :
    keysNodup (extractLcsMatches table original ground) := by
  unfold keysNodup extractLcsMatches List.Nodup
  rw [List.pairwise_map]
  exact (extractLcsAux_pairwise table original ground _ _ _).imp
    (fun h => ne_of_gt h)

theorem mapSet_keysNodup (m : List (Nat × Nat)) (k v : Nat) (h : keysNodup m) :
    keysNodup (mapSet m k v) := by
  unfold mapSet
  by_cases hany : m.any (fun p => p.1 = k) = true
  · rw [if_pos hany]
    unfold keysNodup
    rw [List.map_map]
    have : (Prod.fst ∘ fun p : Nat × Nat => if p.1 = k then (k, v) else p) = Prod.fst := by
      funext p
      by_cases hp : p.1 = k <;> simp [hp]
    rw [this]
    exact h
  · rw [if_neg hany]
    unfold keysNodup
    rw [List.map_append]
    simp only [List.map_cons, List.map_nil]
    rw [List.nodup_append]
    refine ⟨h, List.nodup_singleton k, ?_⟩
    intro a ha hb
    rw [List.mem_singleton.mp hb] at ha
    obtain ⟨p, hp, hpk⟩ := List.mem_map.mp ha
    rw [List.any_eq_true] at hany
    exact hany ⟨p, hp, by simp [hpk]⟩

theorem mapSet_self_mem (m : List (Nat × Nat)) (k v : Nat) :
    (k, v) ∈ mapSet m k v := by
  unfold mapSet
  by_cases hany : m.any (fun p => p.1 = k) = true
  · rw [if_pos hany]
    obtain ⟨p, hp, hpk⟩ := List.any_eq_true.mp hany
    refine List.mem_map.mpr ⟨p, hp, ?_⟩
    simp only [decide_eq_true_eq] at hpk
    rw [if_pos hpk]
  · rw [if_neg hany]
    exact List.mem_append_right _ (List.mem_singleton.mpr rfl)

theorem mapSet_mem_of_ne (m : List (Nat × Nat)) (k v k1 v1 : Nat)
    (h : (k1, v1) ∈ m) (hk : k1 ≠ k) : (k1, v1) ∈ mapSet m k v := by
  unfold mapSet
  by_cases hany : m.any (fun p => p.1 = k) = true
  · rw [if_pos hany]
    refine List.mem_map.mpr ⟨(k1, v1), h, ?_⟩
    rw [if_neg hk]
  · rw [if_neg hany]
    exact List.mem_append_left _ h

theorem mem_insertByKey (p x : Nat × Nat) (l : List (Nat × Nat)) :
    x ∈ insertByKey p l ↔ x = p ∨ x ∈ l := by
  induction l with
  | nil => simp [insertByKey]
  | cons q rest ih =>
    unfold insertByKey
    by_cases hlt : p.1 < q.1
    · rw [if_pos hlt]
      simp [List.mem_cons]
    · rw [if_neg hlt]
      simp only [List.mem_cons, ih]
      tauto

theorem insertByKey_perm (p : Nat × Nat) (l : List (Nat × Nat)) :
    List.Perm (insertByKey p l) (p :: l) := by
  induction l with
  | nil => exact List.Perm.refl _
  | cons q rest ih =>
    unfold insertByKey
    by_cases hlt : p.1 < q.1
    · rw [if_pos hlt]
    · rw [if_neg hlt]
      exact (List.Perm.cons q ih).trans (List.Perm.swap p q rest)

theorem sortByKey_perm (l : List (Nat × Nat)) : List.Perm (sortByKey l) l := by
  induction l with
  | nil => exact List.Perm.refl _
  | cons p rest ih =>
    exact (insertByKey_perm p (sortByKey rest)).trans (List.Perm.cons p ih)

/-- Ascending key order. -/
def SortedKeys (l : List (Nat × Nat)) : Prop :=
  List.Pairwise (fun a b : Nat × Nat => a.1 ≤ b.1) l

theorem insertByKey_sorted (p : Nat × Nat) (l : List (Nat × Nat))
    (h : SortedKeys l) : SortedKeys (insertByKey p l) := by
  induction l with
  | nil => exact List.pairwise_singleton _ p
  | cons q rest ih =>
    unfold insertByKey
    obtain ⟨hq, hrest⟩ := List.pairwise_cons.mp h
    by_cases hlt : p.1 < q.1
    · rw [if_pos hlt]
      refine List.pairwise_cons.mpr ⟨?_, h⟩
      intro b hb
      rcases List.mem_cons.mp hb with hb | hb
      · rw [hb]; exact Nat.le_of_lt hlt
      · exact Nat.le_trans (Nat.le_of_lt hlt) (hq b hb)
    · rw [if_neg hlt]
      refine List.pairwise_cons.mpr ⟨?_, ih hrest⟩
      intro b hb
      rcases (mem_insertByKey p b rest).mp hb with hb | hb
      · rw [hb]; exact Nat.le_of_not_lt hlt
      · exact hq b hb

theorem sortByKey_sorted (l : List (Nat × Nat)) : SortedKeys (sortByKey l) := by
  induction l with
  | nil => exact List.Pairwise.nil
  | cons p rest ih => exact insertByKey_sorted p (sortByKey rest) ih

theorem sorted_eq_cons_zero (s : List (Nat × Nat)) (hs : SortedKeys s)
    (hnd : keysNodup s) (hmem : (0, 0) ∈ s) : ∃ t, s = (0, 0) :: t := by
  match s with
  | [] => simp at hmem
  | h :: t =>
    rcases List.mem_cons.mp hmem with hh | ht
    · exact ⟨t, by rw [hh]⟩
    · exfalso
      have hle : h.1 ≤ 0 := (List.pairwise_cons.mp hs).1 (0, 0) ht
      have hzero : h.1 = 0 := Nat.le_zero.mp hle
      unfold keysNodup at hnd
      simp only [List.map_cons, List.nodup_cons] at hnd
      exact hnd.1 (hzero ▸ List.mem_map.mpr ⟨(0, 0), ht, rfl⟩)

theorem keep_sort_cons_zero (m : List (Nat × Nat)) (hnd : keysNodup m)
    (hmem : (0, 0) ∈ m) :
    ∃ rest, keepIncreasing (sortByKey m) = (0, 0) :: rest := by
  have hsorted := sortByKey_sorted m
  have hperm := sortByKey_perm m
  have hndS : keysNodup (sortByKey m) := by
    unfold keysNodup
    exact (hperm.map Prod.fst).nodup_iff.mpr hnd
  have hmemS : (0, 0) ∈ sortByKey m := hperm.mem_iff.mpr hmem
  obtain ⟨t, ht⟩ := sorted_eq_cons_zero (sortByKey m) hsorted hndS hmemS
  rw [ht]
  exact ⟨keepAux (0, 0) t, rfl⟩

/-- The `Map` contents of `findAnchors` before sorting and
filtering. -/
def anchorMap (norm : String → String) (tokens : List Token)
    (words : List String) : List (Nat × Nat) :=
  let normalizedTokens := tokens.map (fun t => norm t.text)
  let normalizedGTWords := words.map norm
  let m0 := extractLcsMatches (buildLcsTable normalizedTokens normalizedGTWords)
    normalizedTokens normalizedGTWords
  let m1 := mapSet m0 0 0
  if 1 < tokens.length ∧ 1 < words.length then
    mapSet m1 (tokens.length - 1) (words.length - 1)
  else m1

theorem findAnchors_eq_anchorMap (norm : String → String) (tokens : List Token)
    (words : List String) :
    findAnchors norm tokens words = keepIncreasing (sortByKey (anchorMap norm tokens words)) :=
  rfl

theorem anchorMap_keysNodup (norm : String → String) (tokens : List Token)
    (words : List String) : keysNodup (anchorMap norm tokens words) := by
  unfold anchorMap
  by_cases hc : (1 < tokens.length ∧ 1 < words.length)
  · rw [if_pos hc]
    exact mapSet_keysNodup _ _ _ (mapSet_keysNodup _ 0 0 (extractLcsMatches_keysNodup _ _ _))
  · rw [if_neg hc]
    exact mapSet_keysNodup _ 0 0 (extractLcsMatches_keysNodup _ _ _)

theorem anchorMap_zero_mem (norm : String → String) (tokens : List Token)
    (words : List String) : (0, 0) ∈ anchorMap norm tokens words := by
  unfold anchorMap
  by_cases hc : (1 < tokens.length ∧ 1 < words.length)
  · rw [if_pos hc]
    refine mapSet_mem_of_ne _ _ _ 0 0 (mapSet_self_mem _ 0 0) ?_
    omega
  · rw [if_neg hc]
    exact mapSet_self_mem _ 0 0

/-- `findAnchors` always starts with the forced anchor `(0, 0)`. -/
theorem findAnchors_cons_zero (norm : String → String) (tokens : List Token)
    (words : List String) :
    ∃ rest, findAnchors norm tokens words = (0, 0) :: rest := by
  rw [findAnchors_eq_anchorMap]
  exact keep_sort_cons_zero _ (anchorMap_keysNodup norm tokens words)
    (anchorMap_zero_mem norm tokens words)

/- ------------------------------------------------------------------ -/
/- processGaps structure lemmas                                       -/
/- ------------------------------------------------------------------ -/

/-- Unfolding equation of `processGapsAux` on a cons cell. -/
theorem processGapsAux_cons (tokens : List Token) (words : List String)
    (startT startG : Nat) (prevTok : Option Token) (a : Nat × Nat)
    (rest : List (Nat × Nat)) :
    processGapsAux tokens words startT startG prevTok (a :: rest)
      = ((gapMergeAux ((words.drop startG).take (a.2 - startG))
            ((tokens.drop startT).take (a.1 - startT)).length
            ((tokens.drop a.1).headD defaultToken) prevTok
            ((tokens.drop startT).take (a.1 - startT))
            ((words.drop startG).take (a.2 - startG)) 0)
          ++ (⟨((tokens.drop a.1).headD defaultToken).start,
               ((tokens.drop a.1).headD defaultToken).endTime,
               (words.drop a.2).headD "", false⟩ : GroundedToken)
            :: (processGapsAux tokens words (a.1 + 1) (a.2 + 1)
                (some ((tokens.drop a.1).headD defaultToken)) rest).1,
         (processGapsAux tokens words (a.1 + 1) (a.2 + 1)
            (some ((tokens.drop a.1).headD defaultToken)) rest).2.1,
         (processGapsAux tokens words (a.1 + 1) (a.2 + 1)
            (some ((tokens.drop a.1).headD defaultToken)) rest).2.2) := by
  cases a
  rfl

theorem processGapsAux_getLast (tokens : List Token) (words : List String) :
    ∀ (anchors : List (Nat × Nat)) startT startG prevTok ct cg,
    anchors.getLast? = some (ct, cg) →
    (processGapsAux tokens words startT startG prevTok anchors).2.1 = ct + 1 ∧
    (processGapsAux tokens words startT startG prevTok anchors).2.2 = cg + 1 ∧
    (processGapsAux tokens words startT startG prevTok anchors).1.getLast?
      = some ⟨((tokens.drop ct).headD defaultToken).start,
              ((tokens.drop ct).headD defaultToken).endTime,
              (words.drop cg).headD "", false⟩ := by
  intro anchors
  induction anchors with
  | nil => intro startT startG prevTok ct cg h; simp at h
  | cons a rest ih =>
    intro startT startG prevTok ct cg h
    cases rest with
    | nil =>
      rw [List.getLast?_singleton] at h
      obtain rfl : a = (ct, cg) := Option.some_injective _ h
      rw [processGapsAux_cons]
      dsimp only
      refine ⟨rfl, rfl, ?_⟩
      rw [show (processGapsAux tokens words (ct + 1) (cg + 1)
          (some ((tokens.drop ct).headD defaultToken)) ([] : List (Nat × Nat))).1
        = [] from rfl]
      rw [List.getLast?_concat]
    | cons b rest2 =>
      have hlast2 : (b :: rest2).getLast? = some (ct, cg) := by
        rw [← h, List.getLast?_cons_cons]
      obtain ⟨ha, hb2, hc⟩ := ih (a.1 + 1) (a.2 + 1)
        (some ((tokens.drop a.1).headD defaultToken)) ct cg hlast2
      have hne : (processGapsAux tokens words (a.1 + 1) (a.2 + 1)
          (some ((tokens.drop a.1).headD defaultToken)) (b :: rest2)).1 ≠ [] := by
        intro hemp
        rw [hemp] at hc
        simp at hc
      obtain ⟨y, ys, hy⟩ : ∃ y ys, (processGapsAux tokens words (a.1 + 1) (a.2 + 1)
          (some ((tokens.drop a.1).headD defaultToken)) (b :: rest2)).1 = y :: ys := by
        cases hcase : (processGapsAux tokens words (a.1 + 1) (a.2 + 1)
            (some ((tokens.drop a.1).headD defaultToken)) (b :: rest2)).1 with
        | nil => exact absurd hcase hne
        | cons y ys => exact ⟨y, ys, rfl⟩
      rw [processGapsAux_cons]
      dsimp only
      refine ⟨ha, hb2, ?_⟩
      rw [hy, List.getLast?_append_cons, List.getLast?_cons_cons]
      rw [hy] at hc
      exact hc

/-- The first emitted grounded token of the first (forced) anchor block:
the first input token carrying the first ground-truth word. -/
theorem processGapsAux_head_zero (tokens : List Token) (words : List String)
    (rest : List (Nat × Nat)) :
    (processGapsAux tokens words 0 0 none ((0, 0) :: rest)).1.head?
      = some ⟨(tokens.headD defaultToken).start, (tokens.headD defaultToken).endTime,
              words.headD "", false⟩ := by
  rw [processGapsAux_cons]
  rfl

/- ------------------------------------------------------------------ -/
/- Claims C1 and C8                                                   -/
/- ------------------------------------------------------------------ -/

/-- Counterexample to claim C1: with tokens `x a y` and ground truth
`"x a"` both sequences have more than one element, yet the last
returned token's text is `"y"`, not the last ground-truth word `"a"`:
the forced last anchor `(2, 1)` is discarded by the monotonic filter
because the kept anchor `(1, 1)` already consumes the last ground-truth
index. -/
theorem C1_counterexample :
    1 < ([⟨0, 1, "x"⟩, ⟨1, 2, "a"⟩, ⟨2, 3, "y"⟩] : List Token).length ∧
    1 < (tokenizeGroundTruth "x a").length ∧
    (tokenizeGroundTruth "x a").getLast? = some "a" ∧
    (syncTokensWithGroundTruth normalizeWordModel
        [⟨0, 1, "x"⟩, ⟨1, 2, "a"⟩, ⟨2, 3, "y"⟩] "x a").getLast?.map GroundedToken.text
      = some "y" ∧
    ("y" : String) ≠ "a" := by
  refine ⟨by decide, by decide, by decide, ?_, by decide⟩
  decide

/-- Claim C1 (amended): the first token returned by the aligner always
carries the first ground-truth word; and when both sequences have more
than one element *and* the filtered anchor list still ends with the
forced pair `(last token index, last ground-truth index)`, the last
returned token carries the last ground-truth word.  (The unconditional
form of the last-token half is false: the monotonic filter can discard
the forced last anchor, see `C1_counterexample`.) -/
theorem C1_boundary_anchoring_amended (norm : String → String) (tokens : List Token)
    (groundTruth : String) (h1 : tokens ≠ [])
    (h2 : tokenizeGroundTruth groundTruth ≠ []) :
    ((syncTokensWithGroundTruth norm tokens groundTruth).head?.map GroundedToken.text
      = (tokenizeGroundTruth groundTruth).head?) ∧
    (1 < tokens.length → 1 < (tokenizeGroundTruth groundTruth).length →
      (findAnchors norm tokens (tokenizeGroundTruth groundTruth)).getLast?
        = some (tokens.length - 1, (tokenizeGroundTruth groundTruth).length - 1) →
      (syncTokensWithGroundTruth norm tokens groundTruth).getLast?.map GroundedToken.text
        = (tokenizeGroundTruth groundTruth).getLast?) := by
  have hsync : syncTokensWithGroundTruth norm tokens groundTruth
      = syncCore norm tokens (tokenizeGroundTruth groundTruth) := by
    unfold syncTokensWithGroundTruth
    rw [if_neg (by simpa [List.length_eq_zero] using h1),
        if_neg (by simpa [List.length_eq_zero] using h2)]
  constructor
  · rw [hsync]
    obtain ⟨rest, hanch⟩ := findAnchors_cons_zero norm tokens (tokenizeGroundTruth groundTruth)
    unfold syncCore
    rw [hanch]
    obtain ⟨z, zs, hz⟩ : ∃ z zs,
        (processGapsAux tokens (tokenizeGroundTruth groundTruth) 0 0 none
          ((0, 0) :: rest)).1 = z :: zs := by
      cases hcase : (processGapsAux tokens (tokenizeGroundTruth groundTruth) 0 0 none
          ((0, 0) :: rest)).1 with
      | nil =>
        have := processGapsAux_head_zero tokens (tokenizeGroundTruth groundTruth) rest
        rw [hcase] at this
        exact Option.noConfusion this
      | cons z zs => exact ⟨z, zs, rfl⟩
    have hz2 := processGapsAux_head_zero tokens (tokenizeGroundTruth groundTruth) rest
    rw [hz] at hz2 ⊢
    rw [List.cons_append, List.head?_cons]
    rw [List.head?_cons] at hz2
    obtain rfl := Option.some_injective _ hz2
    cases htok : tokens with
    | nil => exact absurd htok h1
    | cons t ts =>
      cases hwords : tokenizeGroundTruth groundTruth with
      | nil => exact absurd hwords h2
      | cons w ws => rfl
  · intro hlen1 hlen2 hanchlast
    rw [hsync]
    obtain ⟨hA, hB, hC⟩ := processGapsAux_getLast tokens (tokenizeGroundTruth groundTruth)
      (findAnchors norm tokens (tokenizeGroundTruth groundTruth)) 0 0 none
      (tokens.length - 1) ((tokenizeGroundTruth groundTruth).length - 1) hanchlast
    have htail : processFinalTail tokens (tokenizeGroundTruth groundTruth)
        (processGapsAux tokens (tokenizeGroundTruth groundTruth) 0 0 none
          (findAnchors norm tokens (tokenizeGroundTruth groundTruth))).2.1
        (processGapsAux tokens (tokenizeGroundTruth groundTruth) 0 0 none
          (findAnchors norm tokens (tokenizeGroundTruth groundTruth))).2.2 = [] := by
      rw [hA, hB]
      rw [show tokens.length - 1 + 1 = tokens.length from by omega]
      rw [show (tokenizeGroundTruth groundTruth).length - 1 + 1
          = (tokenizeGroundTruth groundTruth).length from by omega]
      unfold processFinalTail
      rw [List.drop_length, List.drop_length]
      rfl
    unfold syncCore
    rw [htail, List.append_nil, hC]
    obtain ⟨w, hw⟩ : ∃ w, (tokenizeGroundTruth groundTruth).getLast? = some w := by
      cases hwl : (tokenizeGroundTruth groundTruth).getLast? with
      | none => exact absurd (List.getLast?_eq_none_iff.mp hwl) h2
      | some w => exact ⟨w, rfl⟩
    have hdw : ((tokenizeGroundTruth groundTruth).drop
        ((tokenizeGroundTruth groundTruth).length - 1)).headD "" = w := by
      rw [List.headD_eq_head?_getD, List.head?_drop, ← List.getLast?_eq_getElem?, hw]
      rfl
    rw [hw, Option.map_some']
    rw [show (⟨((tokens.drop (tokens.length - 1)).headD defaultToken).start,
        ((tokens.drop (tokens.length - 1)).headD defaultToken).endTime,
        ((tokenizeGroundTruth groundTruth).drop
          ((tokenizeGroundTruth groundTruth).length - 1)).headD "", false⟩ :
        GroundedToken).text = ((tokenizeGroundTruth groundTruth).drop
          ((tokenizeGroundTruth groundTruth).length - 1)).headD "" from rfl]
    rw [hdw]

/-- Witness for `C1_boundary_anchoring_amended` at a concrete aligned
pair (tokens `the quick` against ground truth `"the quick"`). -/
theorem C1_boundary_anchoring_amended_witness :
    ((syncTokensWithGroundTruth normalizeWordModel
        [⟨0, 1, "the"⟩, ⟨1, 2, "quick"⟩] "the quick").head?.map GroundedToken.text
      = (tokenizeGroundTruth "the quick").head?) ∧
    (1 < ([⟨0, 1, "the"⟩, ⟨1, 2, "quick"⟩] : List Token).length →
      1 < (tokenizeGroundTruth "the quick").length →
      (findAnchors normalizeWordModel [⟨0, 1, "the"⟩, ⟨1, 2, "quick"⟩]
          (tokenizeGroundTruth "the quick")).getLast?
        = some (([⟨0, 1, "the"⟩, ⟨1, 2, "quick"⟩] : List Token).length - 1,
                (tokenizeGroundTruth "the quick").length - 1) →
      (syncTokensWithGroundTruth normalizeWordModel
          [⟨0, 1, "the"⟩, ⟨1, 2, "quick"⟩] "the quick").getLast?.map GroundedToken.text
        = (tokenizeGroundTruth "the quick").getLast?) :=
  C1_boundary_anchoring_amended normalizeWordModel
    [⟨0, 1, "the"⟩, ⟨1, 2, "quick"⟩] "the quick" (by decide) (by decide)

/-- Claim C8: the aligner returns the empty list on an empty token
list, and flags every token unknown (original text and timing
preserved) when the ground truth tokenizes to zero words. -/
theorem C8_empty_input_policies (norm : String → String) :
    (∀ groundTruth, syncTokensWithGroundTruth norm [] groundTruth = []) ∧
    (∀ (tokens : List Token) (groundTruth : String), tokens ≠ [] →
      tokenizeGroundTruth groundTruth = [] →
      syncTokensWithGroundTruth norm tokens groundTruth
        = tokens.map (fun t => ⟨t.start, t.endTime, t.text, true⟩)) := by
  constructor
  · intro groundTruth
    rfl
  · intro tokens groundTruth hne hgt
    unfold syncTokensWithGroundTruth
    rw [if_neg (by simpa [List.length_eq_zero] using hne)]
    rw [if_pos (by rw [hgt]; rfl)]

/-- Witness for `C8_empty_input_policies` at a concrete token list and
the empty ground-truth string. -/
theorem C8_empty_input_policies_witness :
    syncTokensWithGroundTruth normalizeWordModel [] "anything" = [] ∧
    syncTokensWithGroundTruth normalizeWordModel [⟨0, 1, "a"⟩] ""
      = ([⟨0, 1, "a"⟩] : List Token).map (fun t => ⟨t.start, t.endTime, t.text, true⟩) :=
  ⟨(C8_empty_input_policies normalizeWordModel).1 "anything",
   (C8_empty_input_policies normalizeWordModel).2 [⟨0, 1, "a"⟩] "" (by decide) (by decide)⟩

/- ------------------------------------------------------------------ -/
/- Hint Miner (`generateHintsFromTokens`, src/utils/hints miner)      -/
/- ------------------------------------------------------------------ -/

/-- Per-candidate statistics of the miner.  `firstOccurrenceIndex` is
initialized to `Number.POSITIVE_INFINITY` in the source, modelled as
`none`. -/
structure CandidateStats where
  count : Nat
  firstOccurrenceIndex : Option Nat
  occurrenceIndices : List Nat
  occurrencesTruncated : Bool
  surfaceCounts : List (String × Nat)
deriving DecidableEq, Repr

def OCCURRENCE_CAP_FOR_DEDUPE : Nat := 5000

def SURFACE_VARIANTS_CAP : Nat := 5

/-- Candidate maps (`Map<string, CandidateStats>` keyed by
`makeKey = JSON.stringify` of the normalized word tuple, which is
injective, so the key is modelled as the word list itself). -/
abbrev CandMap : Type := List (List String × CandidateStats)

/-- `Map.get` (the key occurs at most once). -/
def lookupCand : CandMap → List String → Option CandidateStats
  | [], _ => none
  | p :: rest, k => if p.1 = k then some p.2 else lookupCand rest k

/-- In-place update of the entry of a key (`candidates.get(key)!`
mutation). -/
def updateCand (f : CandidateStats → CandidateStats) : CandMap → List String → CandMap
  | [], _ => []
  | p :: rest, k => if p.1 = k then (p.1, f p.2) :: rest else p :: updateCand f rest k

def isAllStopwords (words : List String) (stopwords : List String) : Bool :=
  if stopwords.length = 0 then false
  else words.all (fun w => stopwords.any (fun s => s = w))

/-- `addSurfaceVariant`: bump an existing surface count, or append a
new variant only while fewer than `SURFACE_VARIANTS_CAP` are known. -/
def addSurfaceVariant (stats : CandidateStats) (surface : String) : CandidateStats :=
  if stats.surfaceCounts.any (fun p => p.1 = surface) then
    { stats with surfaceCounts :=
        (stats.surfaceCounts.map (fun p => if p.1 = surface then (p.1, p.2 + 1) else p)) }
  else if SURFACE_VARIANTS_CAP ≤ stats.surfaceCounts.length then stats
  else { stats with surfaceCounts := stats.surfaceCounts ++ [(surface, 1)] }

/-- `recordOccurrence`: push the start index while below the cap, else
flag the candidate as truncated. -/
def recordOccurrence (stats : CandidateStats) (index : Nat) : CandidateStats :=
  if stats.occurrenceIndices.length < OCCURRENCE_CAP_FOR_DEDUPE then
    { stats with occurrenceIndices := stats.occurrenceIndices ++ [index] }
  else { stats with occurrencesTruncated := true }

def canClosedDedupe (stats : CandidateStats) : Bool :=
  !stats.occurrencesTruncated

/-- `stats.firstOccurrenceIndex = Math.min(stats.firstOccurrenceIndex,
startIndex)`. -/
def updFirstOccurrence (stats : CandidateStats) (index : Nat) : CandidateStats :=
  { stats with firstOccurrenceIndex := some (match stats.firstOccurrenceIndex with
      | none => index
      | some f => min f index) }

/-- `new Set(items)` on numbers: deduplicate preserving first
occurrence. -/
def addToNatSet (s : List Nat) (x : Nat) : List Nat :=
  if s.any (fun y => y = x) then s else s ++ [x]

def arrayToSet (items : List Nat) : List Nat :=
  items.foldl addToNatSet []

/-- `setEquals`: same size and every element of `a` in `b`. -/
def setEquals (a b : List Nat) : Bool :=
  a.length = b.length && a.all (fun x => b.any (fun y => y = x))

/-- `derivedStartSetForOffset`: each start of the longer phrase shifted
by the offset. -/
def derivedStartSetForOffset (longStarts : List Nat) (offset : Nat) : List Nat :=
  longStarts.foldl (fun derived s => addToNatSet derived (s + offset)) []

/-- `isSubphraseRemovableAtOffset`: the sub-slice of the longer phrase
is removable when it is a candidate of equal count whose start set is
exactly the longer phrase's start set shifted by the offset. -/
def isSubphraseRemovableAtOffset (candidates : CandMap) (longStats : CandidateStats)
    (longWords : List String) (offset subLen : Nat) : Option (List String) :=
  match lookupCand candidates ((longWords.drop offset).take subLen) with
  | none => none
  | some subStats =>
    if subStats.count ≠ longStats.count then none
    else if setEquals
        (derivedStartSetForOffset (arrayToSet longStats.occurrenceIndices) offset)
        (arrayToSet subStats.occurrenceIndices) then
      some ((longWords.drop offset).take subLen)
    else none

/-- Insertion step of the dedupe ordering
(`.sort((a, b) => lenB - lenA || countB - countA)`: length descending,
then count descending; only membership matters below). -/
def insertForDedupe (p : List String × CandidateStats) :
    List (List String × CandidateStats) → List (List String × CandidateStats)
  | [] => [p]
  | q :: rest =>
    if q.1.length < p.1.length ∨ (q.1.length = p.1.length ∧ q.2.count < p.2.count) then
      p :: q :: rest
    else q :: insertForDedupe p rest

/-- `getSortedCandidatesForDedupe` (the key-length cache of the source
is a transparent memoization of `parseKey(key).length`). -/
def getSortedCandidatesForDedupe : CandMap → List (List String × CandidateStats)
  | [] => []
  | p :: rest => insertForDedupe p (getSortedCandidatesForDedupe rest)

/-- The `(subLen, offset)` loop pairs of `applyClosedDedupSafe`:
`subLen` from 2 to `longLen - 1`, `offset` with
`offset + subLen <= longLen`. -/
def subPairs (longLen : Nat) : List (Nat × Nat) :=
  (List.range' 2 (longLen - 2)).flatMap
    (fun subLen => (List.range (longLen + 1 - subLen)).map (fun offset => (subLen, offset)))

/-- `Set.add` on keys. -/
def addKeySet (s : List (List String)) (k : List String) : List (List String) :=
  if s.any (fun x => x = k) then s else s ++ [k]

/-- `applyClosedDedupSafe`: collect the removable sub-phrases, skipping
truncated candidates as removers. -/
def applyClosedDedupSafe (candidates : CandMap) : List (List String) :=
  (getSortedCandidatesForDedupe candidates).foldl
    (fun removable entry =>
      if canClosedDedupe entry.2 then
        (subPairs entry.1.length).foldl
          (fun removable p =>
            match isSubphraseRemovableAtOffset candidates entry.2 entry.1 p.2 p.1 with
            | some subKey => addKeySet removable subKey
            | none => removable)
          removable
      else removable)
    []

/- n-gram counting and stats collection -/

def sliceAt (l : List String) (i n : Nat) : List String :=
  (l.drop i).take n

/-- The `(i, n)` pairs visited by the nested n-gram loops: `i`
ascending over all start indices, `n` ascending in `[minN, maxN]`; the
source breaks out of the inner loop once `i + n > len`, which (since
`n` is ascending) visits exactly the filtered pairs. -/
def ngramSites (len minN maxN : Nat) : List (Nat × Nat) :=
  (List.range len).flatMap
    (fun i => ((List.range' minN (maxN + 1 - minN)).filter
        (fun n => i + n ≤ len)).map (fun n => (i, n)))

def lookupCount : List (List String × Nat) → List String → Option Nat
  | [], _ => none
  | p :: rest, k => if p.1 = k then some p.2 else lookupCount rest k

/-- `counts.set(key, (counts.get(key) ?? 0) + 1)`. -/
def bumpCount : List (List String × Nat) → List String → List (List String × Nat)
  | [], key => [(key, 1)]
  | p :: rest, key =>
    if p.1 = key then (p.1, p.2 + 1) :: rest else p :: bumpCount rest key

/-- One site of `countNgrams`: skip slices with an empty-normalized
word or consisting only of stopwords, else count the n-gram. -/
def countStep (normalizedTokens : List String) (stopwords : List String)
    (counts : List (List String × Nat)) (site : Nat × Nat) : List (List String × Nat) :=
  if (sliceAt normalizedTokens site.1 site.2).any (fun s => s = "") then counts
  else if isAllStopwords (sliceAt normalizedTokens site.1 site.2) stopwords then counts
  else bumpCount counts (sliceAt normalizedTokens site.1 site.2)

/-- `countNgrams` from the miner. -/
def countNgrams (normalizedTokens : List String) (minN maxN : Nat)
    (stopwords : List String) : List (List String × Nat) :=
  (ngramSites normalizedTokens.length minN maxN).foldl
    (countStep normalizedTokens stopwords) []

/-- `selectCandidateKeys`: keys counted at least `minCount` times, in
map order. -/
def selectCandidateKeys (counts : List (List String × Nat)) (minCount : Nat) :
    List (List String) :=
  (counts.filter (fun p => minCount ≤ p.2)).map (fun p => p.1)

/-- `initCandidateStats`: fresh stats per candidate key, with the
already-known total count. -/
def initCandidateStats (counts : List (List String × Nat))
    (candidateKeys : List (List String)) : CandMap :=
  candidateKeys.map (fun key =>
    (key, ⟨(lookupCount counts key).getD 0, none, [], false, []⟩))

/-- One site of `collectCandidateStats` (`collectAt`): for candidate
slices, track first occurrence, record the occurrence and the surface
form. -/
def collectStep (tokens : List Token) (normalizedTokens : List String)
    (candidateKeys : List (List String)) (candidates : CandMap) (site : Nat × Nat) :
    CandMap :=
  if (sliceAt normalizedTokens site.1 site.2).any (fun s => s = "") then candidates
  else if candidateKeys.any (fun k => k = sliceAt normalizedTokens site.1 site.2) then
    updateCand
      (fun stats => addSurfaceVariant (recordOccurrence (updFirstOccurrence stats site.1) site.1)
        (String.intercalate " " (((tokens.drop site.1).take site.2).map (fun t => t.text))))
      candidates (sliceAt normalizedTokens site.1 site.2)
  else candidates

/-- `collectCandidateStats` from the miner. -/
def collectCandidateStats (tokens : List Token) (normalizedTokens : List String)
    (minN maxN : Nat) (candidateKeys : List (List String))
    (counts : List (List String × Nat)) : CandMap :=
  (ngramSites normalizedTokens.length minN maxN).foldl
    (collectStep tokens normalizedTokens candidateKeys)
    (initCandidateStats counts candidateKeys)

/-- The candidate map computed by `generateHintsFromTokens` for a
token stream (after normalization by `norm`). -/
def candidatesOf (norm : String → String) (tokens : List Token)
    (minN maxN minCount : Nat) (stopwords : List String) : CandMap :=
  collectCandidateStats tokens (tokens.map (fun t => norm t.text)) minN maxN
    (selectCandidateKeys
      (countNgrams (tokens.map (fun t => norm t.text)) minN maxN stopwords) minCount)
    (countNgrams (tokens.map (fun t => norm t.text)) minN maxN stopwords)

/-- The set of normalized phrases removed by closed deduplication. -/
def removableOf (norm : String → String) (tokens : List Token)
    (minN maxN minCount : Nat) (stopwords : List String) : List (List String) :=
  applyClosedDedupSafe (candidatesOf norm tokens minN maxN minCount stopwords)

/- Result construction (`pickTopSurfaces`, `buildResults`) -/

structure GeneratedHint where
  count : Nat
  firstOccurrenceIndex : Option Nat
  length : Nat
  normalizedPhrase : String
  phrase : String
  topSurfaceForms : Option (List String)
deriving DecidableEq, Repr

/-- Insertion step of the surface ordering (count descending, then
surface string ascending). -/
def insertSurface (p : String × Nat) : List (String × Nat) → List (String × Nat)
  | [] => [p]
  | q :: rest =>
    if q.2 < p.2 ∨ (q.2 = p.2 ∧ p.1 < q.1) then p :: q :: rest
    else q :: insertSurface p rest

def sortSurfaces : List (String × Nat) → List (String × Nat)
  | [] => []
  | p :: rest => insertSurface p (sortSurfaces rest)

/-- `pickTopSurfaces`: the `max` most frequent surface renderings. -/
def pickTopSurfaces (surfaceCounts : List (String × Nat)) (max : Nat) : List String :=
  ((sortSurfaces surfaceCounts).take max).map (fun p => p.1)

/-- Insertion step of the result ordering (count descending, length
descending, normalized phrase ascending). -/
def insertHint (p : GeneratedHint) : List GeneratedHint → List GeneratedHint
  | [] => [p]
  | q :: rest =>
    if q.count < p.count ∨ (q.count = p.count ∧ q.length < p.length) ∨
        (q.count = p.count ∧ q.length = p.length ∧ p.normalizedPhrase < q.normalizedPhrase) then
      p :: q :: rest
    else q :: insertHint p rest

def sortHints : List GeneratedHint → List GeneratedHint
  | [] => []
  | p :: rest => insertHint p (sortHints rest)

/-- `buildResults`: drop removable candidates, render the hints, sort
and truncate to `topK` (`none` models `Number.POSITIVE_INFINITY`). -/
def buildResults (candidates : CandMap) (removable : List (List String))
    (topK : Option Nat) : List GeneratedHint :=
  let results := (candidates.filter
      (fun p => !(removable.any (fun k => k = p.1)))).map
    (fun p =>
      { count := p.2.count,
        firstOccurrenceIndex := p.2.firstOccurrenceIndex,
        length := p.1.length,
        normalizedPhrase := String.intercalate " " p.1,
        phrase := (pickTopSurfaces p.2.surfaceCounts 3).headD (String.intercalate " " p.1),
        topSurfaceForms := if 0 < (pickTopSurfaces p.2.surfaceCounts 3).length then
            some (pickTopSurfaces p.2.surfaceCounts 3)
          else none })
  match topK with
  | some k => (sortHints results).take k
  | none => sortHints results

/-- The dedupe mode of the miner options (`'closed' | 'none'`). -/
inductive DedupeMode where
  | closed : DedupeMode
  | disabled : DedupeMode
deriving DecidableEq

/-- Resolved miner options (the defaulting of `resolveOptions` happens
before this record; the normalization configuration is represented by
the `norm` function parameter). -/
structure GenerateHintsOptions where
  dedupe : DedupeMode
  maxN : Nat
  minCount : Nat
  minN : Nat
  stopwords : List String
  topK : Option Nat

/-- `generateHintsFromTokens` from the miner, parameterized by the
normalization function. -/
def generateHintsFromTokens (norm : String → String) (tokens : List Token)
    (opts : GenerateHintsOptions) : List GeneratedHint :=
  if tokens.length = 0 then []
  else if opts.minN < 1 ∨ opts.maxN < opts.minN then []
  else if (selectCandidateKeys
      (countNgrams (tokens.map (fun t => norm t.text)) opts.minN opts.maxN opts.stopwords)
      opts.minCount).length = 0 then []
  else
    buildResults (candidatesOf norm tokens opts.minN opts.maxN opts.minCount opts.stopwords)
      (if opts.dedupe = DedupeMode.closed then
        removableOf norm tokens opts.minN opts.maxN opts.minCount opts.stopwords
      else [])
      opts.topK

/- ------------------------------------------------------------------ -/
/- C2: membership structure of the removable set                      -/
/- ------------------------------------------------------------------ -/

theorem mem_addKeySet (s : List (List String)) (k x : List String) :
    x ∈ addKeySet s k ↔ x ∈ s ∨ x = k := by
  unfold addKeySet
  by_cases h : s.any (fun y => y = k) = true
  · rw [if_pos h]
    constructor
    · exact Or.inl
    · rintro (hx | rfl)
      · exact hx
      · obtain ⟨y, hy, hyk⟩ := List.any_eq_true.mp h
        simp only [decide_eq_true_eq] at hyk
        exact hyk ▸ hy
  · rw [if_neg h]
    simp [List.mem_append]

theorem mem_innerFold (candidates : CandMap) (longStats : CandidateStats)
    (longKey : List String) (x : List String) :
    ∀ (pairs : List (Nat × Nat)) (rem0 : List (List String)),
    (x ∈ pairs.foldl (fun removable p =>
        match isSubphraseRemovableAtOffset candidates longStats longKey p.2 p.1 with
        | some subKey => addKeySet removable subKey
        | none => removable) rem0
      ↔ x ∈ rem0 ∨ ∃ p ∈ pairs,
          isSubphraseRemovableAtOffset candidates longStats longKey p.2 p.1 = some x) := by
  intro pairs
  induction pairs with
  | nil => intro rem0; simp
  | cons p rest ih =>
    intro rem0
    rw [List.foldl_cons]
    cases hm : isSubphraseRemovableAtOffset candidates longStats longKey p.2 p.1 with
    | none =>
      rw [ih rem0]
      constructor
      · rintro (h0 | ⟨q, hq, hsome⟩)
        · exact Or.inl h0
        · exact Or.inr ⟨q, List.mem_cons_of_mem _ hq, hsome⟩
      · rintro (h0 | ⟨q, hq, hsome⟩)
        · exact Or.inl h0
        · rcases List.mem_cons.mp hq with rfl | hq2
          · rw [hm] at hsome
            exact Option.noConfusion hsome
          · exact Or.inr ⟨q, hq2, hsome⟩
    | some sk =>
      rw [ih (addKeySet rem0 sk), mem_addKeySet]
      constructor
      · rintro ((h0 | rfl) | ⟨q, hq, hsome⟩)
        · exact Or.inl h0
        · exact Or.inr ⟨p, List.mem_cons_self _ _, hm⟩
        · exact Or.inr ⟨q, List.mem_cons_of_mem _ hq, hsome⟩
      · rintro (h0 | ⟨q, hq, hsome⟩)
        · exact Or.inl (Or.inl h0)
        · rcases List.mem_cons.mp hq with rfl | hq2
          · rw [hm] at hsome
            exact Or.inl (Or.inr (Option.some_injective _ hsome.symm))
          · exact Or.inr ⟨q, hq2, hsome⟩

theorem mem_outerFold (candidates : CandMap) (x : List String) :
    ∀ (entries : List (List String × CandidateStats)) (rem0 : List (List String)),
    (x ∈ entries.foldl (fun removable entry =>
        if canClosedDedupe entry.2 = true then
          (subPairs entry.1.length).foldl
            (fun removable p =>
              match isSubphraseRemovableAtOffset candidates entry.2 entry.1 p.2 p.1 with
              | some subKey => addKeySet removable subKey
              | none => removable)
            removable
        else removable) rem0
      ↔ x ∈ rem0 ∨ ∃ entry ∈ entries, canClosedDedupe entry.2 = true ∧
          ∃ p ∈ subPairs entry.1.length,
            isSubphraseRemovableAtOffset candidates entry.2 entry.1 p.2 p.1 = some x) := by
  intro entries
  induction entries with
  | nil =>
    intro rem0
    rw [List.foldl_nil]
    constructor
    · exact Or.inl
    · rintro (h0 | ⟨e, he, _⟩)
      · exact h0
      · exact absurd he (List.not_mem_nil e)
  | cons e rest ih =>
    intro rem0
    rw [List.foldl_cons]
    by_cases hcan : canClosedDedupe e.2 = true
    · rw [if_pos hcan, ih, mem_innerFold]
      constructor
      · rintro ((h0 | ⟨p, hp, hsome⟩) | ⟨e2, he2, hcan2, hp2⟩)
        · exact Or.inl h0
        · exact Or.inr ⟨e, List.mem_cons_self _ _, hcan, p, hp, hsome⟩
        · exact Or.inr ⟨e2, List.mem_cons_of_mem _ he2, hcan2, hp2⟩
      · rintro (h0 | ⟨e2, he2, hcan2, p, hp, hsome⟩)
        · exact Or.inl (Or.inl h0)
        · rcases List.mem_cons.mp he2 with rfl | he3
          · exact Or.inl (Or.inr ⟨p, hp, hsome⟩)
          · exact Or.inr ⟨e2, he3, hcan2, p, hp, hsome⟩
    · rw [if_neg hcan, ih]
      constructor
      · rintro (h0 | ⟨e2, he2, hcan2, hp2⟩)
        · exact Or.inl h0
        · exact Or.inr ⟨e2, List.mem_cons_of_mem _ he2, hcan2, hp2⟩
      · rintro (h0 | ⟨e2, he2, hcan2, hp2⟩)
        · exact Or.inl h0
        · rcases List.mem_cons.mp he2 with rfl | he3
          · exact absurd hcan2 hcan
          · exact Or.inr ⟨e2, he3, hcan2, hp2⟩

theorem mem_applyClosedDedupSafe (candidates : CandMap) (x : List String)
    (h : x ∈ applyClosedDedupSafe candidates) :
    ∃ entry ∈ getSortedCandidatesForDedupe candidates,
      canClosedDedupe entry.2 = true ∧
      ∃ p ∈ subPairs entry.1.length,
        isSubphraseRemovableAtOffset candidates entry.2 entry.1 p.2 p.1 = some x := by
  have := (mem_outerFold candidates x (getSortedCandidatesForDedupe candidates) []).mp
  unfold applyClosedDedupSafe at h
  rcases this h with h0 | hex
  · exact absurd h0 (List.not_mem_nil x)
  · exact hex

theorem mem_insertForDedupe (p x : List String × CandidateStats)
    (l : List (List String × CandidateStats)) :
    x ∈ insertForDedupe p l ↔ x = p ∨ x ∈ l := by
  induction l with
  | nil => simp [insertForDedupe]
  | cons q rest ih =>
    unfold insertForDedupe
    by_cases hc : (q.1.length < p.1.length ∨ (q.1.length = p.1.length ∧ q.2.count < p.2.count))
    · rw [if_pos hc]
      simp [List.mem_cons]
    · rw [if_neg hc]
      simp only [List.mem_cons, ih]
      tauto

theorem mem_getSortedCandidatesForDedupe (m : CandMap)
    (x : List String × CandidateStats) :
    x ∈ getSortedCandidatesForDedupe m ↔ x ∈ m := by
  induction m with
  | nil => exact Iff.rfl
  | cons p rest ih =>
    show x ∈ insertForDedupe p (getSortedCandidatesForDedupe rest) ↔ x ∈ p :: rest
    rw [mem_insertForDedupe, ih, List.mem_cons]

/- ------------------------------------------------------------------ -/
/- C2: association-list lemmas                                        -/
/- ------------------------------------------------------------------ -/

theorem lookupCand_mem (m : CandMap) (k : List String) (v : CandidateStats)
    (h : lookupCand m k = some v) : (k, v) ∈ m := by
  induction m with
  | nil => exact Option.noConfusion h
  | cons p rest ih =>
    unfold lookupCand at h
    by_cases hk : p.1 = k
    · rw [if_pos hk] at h
      obtain rfl := Option.some_injective _ h
      have : (k, p.2) = p := by
        rw [← hk]
      rw [this]
      exact List.mem_cons_self _ _
    · rw [if_neg hk] at h
      exact List.mem_cons_of_mem _ (ih h)

theorem lookupCand_eq_of_mem (m : CandMap) (k : List String) (v : CandidateStats)
    (hnd : (m.map Prod.fst).Nodup) (hmem : (k, v) ∈ m) :
    lookupCand m k = some v := by
  induction m with
  | nil => exact absurd hmem (List.not_mem_nil _)
  | cons p rest ih =>
    simp only [List.map_cons, List.nodup_cons] at hnd
    rcases List.mem_cons.mp hmem with rfl | hmem2
    · unfold lookupCand
      rw [if_pos rfl]
    · unfold lookupCand
      by_cases hk : p.1 = k
      · exfalso
        exact hnd.1 (hk ▸ List.mem_map.mpr ⟨(k, v), hmem2, rfl⟩)
      · rw [if_neg hk]
        exact ih hnd.2 hmem2

theorem lookupCand_isSome_mem_keys (m : CandMap) (k : List String)
    (h : (lookupCand m k).isSome = true) : k ∈ m.map Prod.fst := by
  induction m with
  | nil => exact absurd h (by simp [lookupCand])
  | cons p rest ih =>
    unfold lookupCand at h
    by_cases hk : p.1 = k
    · rw [List.map_cons, hk]
      exact List.mem_cons_self _ _
    · rw [if_neg hk] at h
      exact List.mem_cons_of_mem _ (ih h)

theorem lookupCand_update_self (f : CandidateStats → CandidateStats) (m : CandMap)
    (k : List String) :
    lookupCand (updateCand f m k) k = (lookupCand m k).map f := by
  induction m with
  | nil => rfl
  | cons p rest ih =>
    simp only [updateCand, lookupCand]
    by_cases hk : p.1 = k
    · rw [if_pos hk]
      simp only [lookupCand]
      rw [if_pos hk, if_pos hk]
      rfl
    · rw [if_neg hk]
      simp only [lookupCand]
      rw [if_neg hk, if_neg hk]
      exact ih

theorem lookupCand_update_other (f : CandidateStats → CandidateStats) (m : CandMap)
    (k k1 : List String) (h : k1 ≠ k) :
    lookupCand (updateCand f m k) k1 = lookupCand m k1 := by
  induction m with
  | nil => rfl
  | cons p rest ih =>
    simp only [updateCand, lookupCand]
    by_cases hk : p.1 = k
    · rw [if_pos hk]
      simp only [lookupCand]
      rw [if_neg (by rw [hk]; exact fun hh => h hh.symm), if_neg (by rw [hk]; exact fun hh => h hh.symm)]
    · rw [if_neg hk]
      simp only [lookupCand]
      by_cases hk1 : p.1 = k1
      · rw [if_pos hk1, if_pos hk1]
      · rw [if_neg hk1, if_neg hk1]
        exact ih

theorem updateCand_keys (f : CandidateStats → CandidateStats) (m : CandMap)
    (k : List String) :
    (updateCand f m k).map Prod.fst = m.map Prod.fst := by
  induction m with
  | nil => rfl
  | cons p rest ih =>
    simp only [updateCand]
    by_cases hk : p.1 = k
    · rw [if_pos hk]
      simp only [List.map_cons]
    · rw [if_neg hk]
      simp only [List.map_cons, ih]

theorem lookupCount_bump_self (m : List (List String × Nat)) (k : List String) :
    lookupCount (bumpCount m k) k = some ((lookupCount m k).getD 0 + 1) := by
  induction m with
  | nil => simp [bumpCount, lookupCount]
  | cons p rest ih =>
    by_cases hk : p.1 = k
    · simp [bumpCount, lookupCount, hk]
    · simp [bumpCount, lookupCount, hk, ih]

theorem lookupCount_bump_other (m : List (List String × Nat)) (k k1 : List String)
    (h : k1 ≠ k) : lookupCount (bumpCount m k) k1 = lookupCount m k1 := by
  have h' : ¬ k = k1 := fun hh => h hh.symm
  induction m with
  | nil => simp [bumpCount, lookupCount, h']
  | cons p rest ih =>
    by_cases hk : p.1 = k
    · simp [bumpCount, lookupCount, hk, h, h']
    · by_cases hk1 : p.1 = k1
      · simp [bumpCount, lookupCount, hk, hk1, h, h']
      · simp [bumpCount, lookupCount, hk, hk1, ih]

theorem lookupCount_isSome_bump (m : List (List String × Nat)) (k k1 : List String)
    (h : (lookupCount (bumpCount m k) k1).isSome = true) :
    k1 = k ∨ (lookupCount m k1).isSome = true := by
  by_cases hk : k1 = k
  · exact Or.inl hk
  · rw [lookupCount_bump_other m k k1 hk] at h
    exact Or.inr h

theorem bumpCount_keys_mem (m : List (List String × Nat)) (k : List String)
    (q : List String × Nat) (hq : q ∈ bumpCount m k) :
    q.1 ∈ m.map Prod.fst ∨ q.1 = k := by
  induction m with
  | nil =>
    simp only [bumpCount] at hq
    rcases List.mem_singleton.mp hq with rfl
    exact Or.inr rfl
  | cons r rrest ih2 =>
    simp only [bumpCount] at hq
    by_cases hr : r.1 = k
    · rw [if_pos hr] at hq
      rcases List.mem_cons.mp hq with rfl | hq2
      · exact Or.inl (by simp)
      · exact Or.inl (List.mem_cons_of_mem _ (List.mem_map.mpr ⟨q, hq2, rfl⟩))
    · rw [if_neg hr] at hq
      rcases List.mem_cons.mp hq with rfl | hq2
      · exact Or.inl (by simp)
      · rcases ih2 hq2 with hin | heq
        · exact Or.inl (List.mem_cons_of_mem _ hin)
        · exact Or.inr heq

theorem bumpCount_keys_nodup (m : List (List String × Nat)) (k : List String)
    (hnd : (m.map Prod.fst).Nodup) : ((bumpCount m k).map Prod.fst).Nodup := by
  induction m with
  | nil => simp [bumpCount]
  | cons p rest ih =>
    simp only [List.map_cons, List.nodup_cons] at hnd
    by_cases hk : p.1 = k
    · simp only [bumpCount, if_pos hk, List.map_cons, List.nodup_cons]
      exact hnd
    · simp only [bumpCount, if_neg hk, List.map_cons, List.nodup_cons]
      refine ⟨?_, ih hnd.2⟩
      intro hmem
      obtain ⟨q, hq, hqk⟩ := List.mem_map.mp hmem
      rcases bumpCount_keys_mem rest k q hq with hin | heq
      · exact hnd.1 (hqk ▸ hin)
      · exact hk (hqk ▸ heq)

theorem lookupCand_map_keys (g : List String → CandidateStats)
    (keys : List (List String)) (k : List String) (h : k ∈ keys) :
    lookupCand (keys.map (fun key => (key, g key))) k = some (g k) := by
  induction keys with
  | nil => exact absurd h (List.not_mem_nil _)
  | cons key rest ih =>
    rcases List.mem_cons.mp h with rfl | h2
    · simp [lookupCand]
    · by_cases hk : key = k
      · simp [lookupCand, hk]
      · show lookupCand ((key, g key) :: rest.map (fun key => (key, g key))) k = some (g k)
        simp only [lookupCand, if_neg hk]
        exact ih h2

theorem mem_keys_lookupCount (m : List (List String × Nat)) (k : List String)
    (h : k ∈ m.map Prod.fst) : (lookupCount m k).isSome = true := by
  induction m with
  | nil => exact absurd h (List.not_mem_nil _)
  | cons p rest ih =>
    simp only [lookupCount]
    by_cases hk : p.1 = k
    · rw [if_pos hk]
      rfl
    · rw [if_neg hk]
      rcases List.mem_cons.mp h with rfl | h2
      · exact absurd rfl hk
      · exact ih h2

/- ------------------------------------------------------------------ -/
/- C2: counting invariants                                            -/
/- ------------------------------------------------------------------ -/

theorem countFold_keys_nodup (nt sw : List String) :
    ∀ (sites : List (Nat × Nat)) (m : List (List String × Nat)),
    (m.map Prod.fst).Nodup →
    ((sites.foldl (countStep nt sw) m).map Prod.fst).Nodup := by
  intro sites
  induction sites with
  | nil => intro m h; exact h
  | cons s rest ih =>
    intro m h
    rw [List.foldl_cons]
    apply ih
    show ((countStep nt sw m s).map Prod.fst).Nodup
    unfold countStep
    split
    · exact h
    · split
      · exact h
      · exact bumpCount_keys_nodup _ _ h

theorem countNgrams_keys_nodup (nt : List String) (minN maxN : Nat) (sw : List String) :
    ((countNgrams nt minN maxN sw).map Prod.fst).Nodup := by
  unfold countNgrams
  exact countFold_keys_nodup nt sw _ [] (by simp)

theorem countFold_key_prop (nt sw : List String) :
    ∀ (sites : List (Nat × Nat)) (m : List (List String × Nat)),
    (∀ k, (lookupCount m k).isSome = true →
      (k.any (fun x => x = "")) = false ∧ isAllStopwords k sw = false) →
    ∀ k, (lookupCount (sites.foldl (countStep nt sw) m) k).isSome = true →
      (k.any (fun x => x = "")) = false ∧ isAllStopwords k sw = false := by
  intro sites
  induction sites with
  | nil => intro m h; exact h
  | cons s rest ih =>
    intro m h
    rw [List.foldl_cons]
    apply ih
    intro k hk
    show _
    unfold countStep at hk
    split at hk
    · exact h k hk
    · split at hk
      · exact h k hk
      · next h1 h2 =>
        rcases lookupCount_isSome_bump m _ k hk with heq | hk2
        · subst heq
          simp only [Bool.not_eq_true] at h1 h2
          exact ⟨h1, h2⟩
        · exact h k hk2

theorem countNgrams_key_prop (nt : List String) (minN maxN : Nat) (sw k : List String)
    (hk : (lookupCount (countNgrams nt minN maxN sw) k).isSome = true) :
    (k.any (fun x => x = "")) = false ∧ isAllStopwords k sw = false := by
  unfold countNgrams at hk
  refine countFold_key_prop nt sw _ [] ?_ k hk
  intro k1 h1
  exact absurd h1 (by simp [lookupCount])

theorem countFold_value (nt sw k : List String)
    (hk1 : (k.any (fun x => x = "")) = false) (hk2 : isAllStopwords k sw = false) :
    ∀ (sites : List (Nat × Nat)) (m : List (List String × Nat)),
    (lookupCount (sites.foldl (countStep nt sw) m) k).getD 0
      = (lookupCount m k).getD 0
        + (sites.filter (fun s => decide (sliceAt nt s.1 s.2 = k))).length := by
  intro sites
  induction sites with
  | nil => intro m; simp
  | cons s rest ih =>
    intro m
    rw [List.foldl_cons, ih]
    by_cases hs : sliceAt nt s.1 s.2 = k
    · have hstep : countStep nt sw m s = bumpCount m k := by
        unfold countStep
        rw [hs, hk1, hk2]
        simp
      rw [hstep, lookupCount_bump_self]
      simp only [List.filter_cons, hs, decide_True, if_true, List.length_cons,
        Option.getD_some]
      omega
    · have hstep : (lookupCount (countStep nt sw m s) k).getD 0
          = (lookupCount m k).getD 0 := by
        unfold countStep
        split
        · rfl
        · split
          · rfl
          · rw [lookupCount_bump_other m _ k (fun hh => hs hh.symm)]
      rw [hstep]
      simp [List.filter_cons, hs]

theorem countNgrams_value (nt : List String) (minN maxN : Nat) (sw k : List String)
    (hk1 : (k.any (fun x => x = "")) = false) (hk2 : isAllStopwords k sw = false) :
    (lookupCount (countNgrams nt minN maxN sw) k).getD 0
      = ((ngramSites nt.length minN maxN).filter
          (fun s => decide (sliceAt nt s.1 s.2 = k))).length := by
  unfold countNgrams
  rw [countFold_value nt sw k hk1 hk2]
  simp [lookupCount]

theorem selectCandidateKeys_subset (counts : List (List String × Nat)) (minCount : Nat)
    (k : List String) (hk : k ∈ selectCandidateKeys counts minCount) :
    k ∈ counts.map Prod.fst := by
  unfold selectCandidateKeys at hk
  obtain ⟨p, hp, rfl⟩ := List.mem_map.mp hk
  exact List.mem_map.mpr ⟨p, (List.mem_filter.mp hp).1, rfl⟩

theorem selectCandidateKeys_nodup (counts : List (List String × Nat)) (minCount : Nat)
    (hnd : (counts.map Prod.fst).Nodup) : (selectCandidateKeys counts minCount).Nodup := by
  unfold selectCandidateKeys
  exact List.Nodup.sublist ((List.filter_sublist _).map Prod.fst) hnd

/- ------------------------------------------------------------------ -/
/- C2: stats-collection invariants                                    -/
/- ------------------------------------------------------------------ -/

theorem updFirstOccurrence_fields (stats : CandidateStats) (index : Nat) :
    (updFirstOccurrence stats index).count = stats.count ∧
    (updFirstOccurrence stats index).occurrenceIndices = stats.occurrenceIndices ∧
    (updFirstOccurrence stats index).occurrencesTruncated = stats.occurrencesTruncated :=
  ⟨rfl, rfl, rfl⟩

theorem addSurfaceVariant_fields (stats : CandidateStats) (surface : String) :
    (addSurfaceVariant stats surface).count = stats.count ∧
    (addSurfaceVariant stats surface).occurrenceIndices = stats.occurrenceIndices ∧
    (addSurfaceVariant stats surface).occurrencesTruncated = stats.occurrencesTruncated := by
  unfold addSurfaceVariant
  split
  · exact ⟨rfl, rfl, rfl⟩
  · split
    · exact ⟨rfl, rfl, rfl⟩
    · exact ⟨rfl, rfl, rfl⟩

theorem recordOccurrence_spec (stats : CandidateStats) (index : Nat) :
    (recordOccurrence stats index).count = stats.count ∧
    ((stats.occurrenceIndices.length < OCCURRENCE_CAP_FOR_DEDUPE ∧
      (recordOccurrence stats index).occurrenceIndices.length
        = stats.occurrenceIndices.length + 1 ∧
      (recordOccurrence stats index).occurrencesTruncated = stats.occurrencesTruncated) ∨
     (OCCURRENCE_CAP_FOR_DEDUPE ≤ stats.occurrenceIndices.length ∧
      (recordOccurrence stats index).occurrenceIndices.length
        = stats.occurrenceIndices.length ∧
      (recordOccurrence stats index).occurrencesTruncated = true)) := by
  unfold recordOccurrence
  split
  next h => exact ⟨rfl, Or.inl ⟨h, by simp, rfl⟩⟩
  next h => exact ⟨rfl, Or.inr ⟨Nat.le_of_not_lt h, rfl, rfl⟩⟩

/-- One matching collect update advances the per-key occurrence
invariant by one occurrence. -/
theorem collectUpd_step (stats : CandidateStats) (index : Nat) (surface : String)
    (m0 : Nat)
    (hlen : stats.occurrenceIndices.length = min m0 OCCURRENCE_CAP_FOR_DEDUPE)
    (htr : stats.occurrencesTruncated = decide (OCCURRENCE_CAP_FOR_DEDUPE < m0)) :
    (addSurfaceVariant (recordOccurrence (updFirstOccurrence stats index) index)
        surface).count = stats.count ∧
    (addSurfaceVariant (recordOccurrence (updFirstOccurrence stats index) index)
        surface).occurrenceIndices.length = min (m0 + 1) OCCURRENCE_CAP_FOR_DEDUPE ∧
    (addSurfaceVariant (recordOccurrence (updFirstOccurrence stats index) index)
        surface).occurrencesTruncated
      = decide (OCCURRENCE_CAP_FOR_DEDUPE < m0 + 1) := by
  obtain ⟨hu1, hu2, hu3⟩ := updFirstOccurrence_fields stats index
  obtain ⟨ha1, ha2, ha3⟩ :=
    addSurfaceVariant_fields (recordOccurrence (updFirstOccurrence stats index) index) surface
  obtain ⟨hr1, hr⟩ := recordOccurrence_spec (updFirstOccurrence stats index) index
  rw [hu2, hu3] at hr
  rcases hr with ⟨hlt, hrl, hrt⟩ | ⟨hge, hrl, hrt⟩
  · refine ⟨by rw [ha1, hr1, hu1], ?_, ?_⟩
    · rw [ha2, hrl, hlen]
      rw [hlen] at hlt
      omega
    · rw [ha3, hrt, htr]
      rw [hlen] at hlt
      rw [decide_eq_decide]
      omega
  · refine ⟨by rw [ha1, hr1, hu1], ?_, ?_⟩
    · rw [ha2, hrl, hlen]
      rw [hlen] at hge
      omega
    · rw [ha3, hrt]
      rw [hlen] at hge
      symm
      rw [decide_eq_true_iff]
      omega

theorem collectFold_keys (tokens : List Token) (nt : List String)
    (ckeys : List (List String)) :
    ∀ (sites : List (Nat × Nat)) (m : CandMap),
    (sites.foldl (collectStep tokens nt ckeys) m).map Prod.fst = m.map Prod.fst := by
  intro sites
  induction sites with
  | nil => intro m; rfl
  | cons s rest ih =>
    intro m
    rw [List.foldl_cons, ih]
    show (collectStep tokens nt ckeys m s).map Prod.fst = m.map Prod.fst
    unfold collectStep
    split
    · rfl
    · split
      · exact updateCand_keys _ m _
      · rfl

theorem initCandidateStats_keys (counts : List (List String × Nat))
    (ckeys : List (List String)) :
    (initCandidateStats counts ckeys).map Prod.fst = ckeys := by
  induction ckeys with
  | nil => rfl
  | cons k rest ih =>
    show k :: (initCandidateStats counts rest).map Prod.fst = k :: rest
    rw [ih]

theorem lookupCand_init (counts : List (List String × Nat))
    (ckeys : List (List String)) (k : List String) (hk : k ∈ ckeys) :
    lookupCand (initCandidateStats counts ckeys) k
      = some ⟨(lookupCount counts k).getD 0, none, [], false, []⟩ := by
  unfold initCandidateStats
  exact lookupCand_map_keys _ ckeys k hk

/-- The per-key invariant carried through the `collectAt` fold: the
count field is never modified, the occurrence list holds the matched
occurrences up to the cap, and the truncation flag records whether the
cap was exceeded. -/
theorem collectFold_stats (tokens : List Token) (nt : List String)
    (ckeys : List (List String)) (k : List String) (hk : k ∈ ckeys)
    (hk1 : (k.any (fun x => x = "")) = false) :
    ∀ (sites : List (Nat × Nat)) (m : CandMap) (st0 : CandidateStats) (m0 : Nat),
    lookupCand m k = some st0 →
    st0.occurrenceIndices.length = min m0 OCCURRENCE_CAP_FOR_DEDUPE →
    st0.occurrencesTruncated = decide (OCCURRENCE_CAP_FOR_DEDUPE < m0) →
    ∃ st, lookupCand (sites.foldl (collectStep tokens nt ckeys) m) k = some st ∧
      st.count = st0.count ∧
      st.occurrenceIndices.length
        = min (m0 + (sites.filter (fun s => decide (sliceAt nt s.1 s.2 = k))).length)
            OCCURRENCE_CAP_FOR_DEDUPE ∧
      st.occurrencesTruncated
        = decide (OCCURRENCE_CAP_FOR_DEDUPE
            < m0 + (sites.filter (fun s => decide (sliceAt nt s.1 s.2 = k))).length) := by
  intro sites
  induction sites with
  | nil =>
    intro m st0 m0 hl hlen htr
    exact ⟨st0, hl, rfl, by simpa using hlen, by simpa using htr⟩
  | cons s rest ih =>
    intro m st0 m0 hl hlen htr
    rw [List.foldl_cons]
    by_cases hs : sliceAt nt s.1 s.2 = k
    · have hstep : collectStep tokens nt ckeys m s
          = updateCand (fun stats =>
              addSurfaceVariant (recordOccurrence (updFirstOccurrence stats s.1) s.1)
                (String.intercalate " "
                  (((tokens.drop s.1).take s.2).map (fun t => t.text)))) m k := by
        unfold collectStep
        rw [hs, hk1]
        have hck : ckeys.any (fun c => c = k) = true :=
          List.any_eq_true.mpr ⟨k, hk, by simp⟩
        rw [hck]
        simp
      have hl1 : lookupCand (collectStep tokens nt ckeys m s) k
          = some (addSurfaceVariant (recordOccurrence (updFirstOccurrence st0 s.1) s.1)
              (String.intercalate " "
                (((tokens.drop s.1).take s.2).map (fun t => t.text)))) := by
        rw [hstep, lookupCand_update_self, hl]
        rfl
      obtain ⟨hc1, hlen1, htr1⟩ := collectUpd_step st0 s.1
        (String.intercalate " " (((tokens.drop s.1).take s.2).map (fun t => t.text)))
        m0 hlen htr
      obtain ⟨st, hl2, hc2, hlen2, htr2⟩ := ih _ _ (m0 + 1) hl1 hlen1 htr1
      refine ⟨st, hl2, by rw [hc2, hc1], ?_, ?_⟩
      · rw [hlen2]
        simp only [List.filter_cons, hs, decide_True, if_true, List.length_cons]
        congr 1
        omega
      · rw [htr2]
        simp only [List.filter_cons, hs, decide_True, if_true, List.length_cons]
        rw [decide_eq_decide]
        omega
    · have hstep : lookupCand (collectStep tokens nt ckeys m s) k = lookupCand m k := by
        unfold collectStep
        split
        · rfl
        · split
          · exact lookupCand_update_other _ m _ k (fun hh => hs hh.symm)
          · rfl
      obtain ⟨st, hl2, hc2, hlen2, htr2⟩ := ih _ st0 m0 (hstep.trans hl) hlen htr
      refine ⟨st, hl2, hc2, ?_, ?_⟩
      · rw [hlen2]
        simp [List.filter_cons, hs]
      · rw [htr2]
        simp [List.filter_cons, hs]

theorem candidatesOf_keys (norm : String → String) (tokens : List Token)
    (minN maxN minCount : Nat) (sw : List String) :
    (candidatesOf norm tokens minN maxN minCount sw).map Prod.fst
      = selectCandidateKeys
          (countNgrams (tokens.map (fun t => norm t.text)) minN maxN sw) minCount := by
  unfold candidatesOf collectCandidateStats
  rw [collectFold_keys, initCandidateStats_keys]

theorem candidatesOf_keysNodup (norm : String → String) (tokens : List Token)
    (minN maxN minCount : Nat) (sw : List String) :
    ((candidatesOf norm tokens minN maxN minCount sw).map Prod.fst).Nodup := by
  rw [candidatesOf_keys]
  exact selectCandidateKeys_nodup _ _ (countNgrams_keys_nodup _ minN maxN sw)

/-- The truncation bridge: every candidate entry's truncation flag
records exactly whether its total count exceeds the occurrence cap. -/
theorem candidatesOf_stats (norm : String → String) (tokens : List Token)
    (minN maxN minCount : Nat) (sw : List String) (k : List String) (st : CandidateStats)
    (h : lookupCand (candidatesOf norm tokens minN maxN minCount sw) k = some st) :
    st.occurrencesTruncated = decide (OCCURRENCE_CAP_FOR_DEDUPE < st.count) := by
  have hkeys : k ∈ (candidatesOf norm tokens minN maxN minCount sw).map Prod.fst :=
    lookupCand_isSome_mem_keys _ k (by rw [h]; rfl)
  rw [candidatesOf_keys] at hkeys
  have hcountkeys := selectCandidateKeys_subset _ minCount k hkeys
  have hsome := mem_keys_lookupCount _ k hcountkeys
  obtain ⟨hk1, hk2⟩ := countNgrams_key_prop (tokens.map (fun t => norm t.text))
    minN maxN sw k hsome
  have hval := countNgrams_value (tokens.map (fun t => norm t.text)) minN maxN sw k hk1 hk2
  have hinit := lookupCand_init
    (countNgrams (tokens.map (fun t => norm t.text)) minN maxN sw) _ k hkeys
  obtain ⟨st2, hl2, hc2, hlen2, htr2⟩ := collectFold_stats tokens
    (tokens.map (fun t => norm t.text)) _ k hkeys hk1
    (ngramSites (tokens.map (fun t => norm t.text)).length minN maxN)
    _ _ 0 hinit (by simp) (by simp)
  unfold candidatesOf collectCandidateStats at h
  rw [h] at hl2
  obtain rfl := Option.some_injective _ hl2
  rw [htr2, hc2]
  simp only [Nat.zero_add]
  rw [hval]

/- ------------------------------------------------------------------ -/
/- C2: closed-dedup safety                                            -/
/- ------------------------------------------------------------------ -/

theorem subPairs_bounds (L : Nat) (p : Nat × Nat) (hp : p ∈ subPairs L) :
    2 ≤ p.1 ∧ p.1 < L ∧ p.2 + p.1 ≤ L := by
  unfold subPairs at hp
  obtain ⟨subLen, hsl, hmap⟩ := List.mem_flatMap.mp hp
  obtain ⟨offset, hof, rfl⟩ := List.mem_map.mp hmap
  rw [List.mem_range'_1] at hsl
  rw [List.mem_range] at hof
  exact ⟨hsl.1, by omega, by omega⟩

theorem sliceAt_length (l : List String) (i n : Nat) (h : i + n ≤ l.length) :
    (sliceAt l i n).length = n := by
  unfold sliceAt
  rw [List.length_take, List.length_drop]
  omega

def C2ExTokens : List Token :=
  [⟨0, 1, "a"⟩, ⟨1, 2, "b"⟩, ⟨2, 3, "c"⟩, ⟨3, 4, "a"⟩, ⟨4, 5, "b"⟩, ⟨5, 6, "c"⟩]

def C2ExOptions : GenerateHintsOptions :=
  ⟨DedupeMode.closed, 3, 2, 2, [], none⟩

/-- C2: closed-dedup safety of the hint miner. With dedupe `'closed'`,
whenever `generateHintsFromTokens` removes a candidate phrase `subKey`
(it is in the removable set filtered out of the results), there is a
longer candidate of equal total count containing `subKey` at a fixed
relative offset whose occurrence-start set, shifted by that offset,
equals `subKey`'s occurrence-start set exactly; the longer candidate's
occurrence list is not truncated at the cap, and the removed
candidate's occurrence list is not truncated either. -/
theorem C2_closed_dedup_safety (norm : String → String) (tokens : List Token)
    (opts : GenerateHintsOptions) (_hd : opts.dedupe = DedupeMode.closed)
    (subKey : List String)
    (hmem : subKey ∈ removableOf norm tokens opts.minN opts.maxN opts.minCount
      opts.stopwords) :
    ∃ longWords longStats subStats offset,
      (longWords, longStats)
        ∈ candidatesOf norm tokens opts.minN opts.maxN opts.minCount opts.stopwords ∧
      lookupCand (candidatesOf norm tokens opts.minN opts.maxN opts.minCount opts.stopwords)
        subKey = some subStats ∧
      2 ≤ subKey.length ∧
      subKey.length < longWords.length ∧
      offset + subKey.length ≤ longWords.length ∧
      subKey = sliceAt longWords offset subKey.length ∧
      subStats.count = longStats.count ∧
      setEquals (derivedStartSetForOffset (arrayToSet longStats.occurrenceIndices) offset)
        (arrayToSet subStats.occurrenceIndices) = true ∧
      longStats.occurrencesTruncated = false ∧
      subStats.occurrencesTruncated = false := by
  unfold removableOf at hmem
  obtain ⟨entry, hentry, hcan, p, hp, hsome⟩ := mem_applyClosedDedupSafe _ _ hmem
  have hentrymem :
      entry ∈ candidatesOf norm tokens opts.minN opts.maxN opts.minCount opts.stopwords :=
    (mem_getSortedCandidatesForDedupe _ _).mp hentry
  obtain ⟨hb1, hb2, hb3⟩ := subPairs_bounds entry.1.length p hp
  unfold isSubphraseRemovableAtOffset at hsome
  split at hsome
  next => exact Option.noConfusion hsome
  next subStats hsub =>
    split at hsome
    · exact Option.noConfusion hsome
    · next hne =>
      split at hsome
      · next hset =>
        have hkey : (entry.1.drop p.2).take p.1 = subKey := Option.some_injective _ hsome
        have hcount : subStats.count = entry.2.count := not_not.mp hne
        have hlonglookup : lookupCand
            (candidatesOf norm tokens opts.minN opts.maxN opts.minCount opts.stopwords)
            entry.1 = some entry.2 :=
          lookupCand_eq_of_mem _ _ _
            (candidatesOf_keysNodup norm tokens opts.minN opts.maxN opts.minCount
              opts.stopwords) hentrymem
        simp only [canClosedDedupe, Bool.not_eq_true'] at hcan
        have hlst := candidatesOf_stats norm tokens opts.minN opts.maxN opts.minCount
          opts.stopwords entry.1 entry.2 hlonglookup
        have hle : entry.2.count ≤ OCCURRENCE_CAP_FOR_DEDUPE := by
          rw [hcan] at hlst
          have := of_decide_eq_false hlst.symm
          omega
        rw [hkey] at hsub
        have hsst := candidatesOf_stats norm tokens opts.minN opts.maxN opts.minCount
          opts.stopwords subKey subStats hsub
        have hsubtr : subStats.occurrencesTruncated = false := by
          rw [hsst, hcount]
          rw [decide_eq_false_iff_not]
          omega
        have hklen : subKey.length = p.1 := by
          rw [← hkey]
          exact sliceAt_length entry.1 p.2 p.1 hb3
        refine ⟨entry.1, entry.2, subStats, p.2, hentrymem, hsub, ?_, ?_, ?_, ?_,
          hcount, hset, hcan, hsubtr⟩
        · rw [hklen]; exact hb1
        · rw [hklen]; exact hb2
        · rw [hklen]; exact hb3
        · rw [hklen]; exact hkey.symm
      · exact Option.noConfusion hsome

/-- C2 witness: for the six-token stream a b c a b c with minN 2,
maxN 3, minCount 2 and closed dedupe, the removed phrase "a b" is
contained in the equal-count candidate "a b c" at offset 0 with
matching shifted start sets, and neither side is truncated. -/
theorem C2_closed_dedup_safety_witness :
    C2ExOptions.dedupe = DedupeMode.closed ∧
    ["a", "b"] ∈ removableOf normalizeWordModel C2ExTokens C2ExOptions.minN
      C2ExOptions.maxN C2ExOptions.minCount C2ExOptions.stopwords ∧
    (∃ longWords longStats subStats offset,
      (longWords, longStats)
        ∈ candidatesOf normalizeWordModel C2ExTokens C2ExOptions.minN C2ExOptions.maxN
            C2ExOptions.minCount C2ExOptions.stopwords ∧
      lookupCand (candidatesOf normalizeWordModel C2ExTokens C2ExOptions.minN
          C2ExOptions.maxN C2ExOptions.minCount C2ExOptions.stopwords)
        ["a", "b"] = some subStats ∧
      2 ≤ (["a", "b"] : List String).length ∧
      (["a", "b"] : List String).length < longWords.length ∧
      offset + (["a", "b"] : List String).length ≤ longWords.length ∧
      ["a", "b"] = sliceAt longWords offset (["a", "b"] : List String).length ∧
      subStats.count = longStats.count ∧
      setEquals (derivedStartSetForOffset (arrayToSet longStats.occurrenceIndices) offset)
        (arrayToSet subStats.occurrenceIndices) = true ∧
      longStats.occurrencesTruncated = false ∧
      subStats.occurrencesTruncated = false) :=
  ⟨rfl, by decide,
    C2_closed_dedup_safety normalizeWordModel C2ExTokens C2ExOptions rfl
      ["a", "b"] (by decide)⟩

end Paragrafs



